import Mathlib

/-!
Verification of the `ModernPortfolio` analysis core (`Analysis.py`).

Shallow embedding conventions:
* Python floats are modelled by `ℚ`.  Portfolio arithmetic (sums, products,
  divisions) is exact in the source up to rounding, and every claim about it is
  algebraic, so the rational idealisation is used there.  The one place where a
  claim is specifically about binary64 rounding — the float-accumulating
  stepper `frange` — is modelled bit-exactly (see `roundS`/`frangeZ` below).
* Division by zero: Python raises `ZeroDivisionError`, which `Analysis.py`
  catches wherever it can occur in portfolio arithmetic and converts to the
  fallback `0.0`.  Rational division by zero yields `0`, matching the fallback,
  so the guarded divisions are written as plain `/`.
* `reduce` over an empty list raises an uncaught `TypeError`; functions whose
  Python counterpart can raise without a handler return `Option`, with `none`
  for the escaping exception.
* Python `Asset` objects compare by identity; the `oid` field models the
  object identity so that structurally equal but distinct objects stay
  distinct, as in the source.
-/

/-! ## Module constants and helper functions (Analysis.py, region Functions) -/

def rel_tol : ℚ := 1 / 10000

def abs_tol : ℚ := 1 / 10000000

/-- Source `float_eq(a, b)`: `abs(b - a) < atol + rtol * (a + b)` with the
module default tolerances (the program never overrides them). -/
def float_eq (a b : ℚ) : Prop :=
  |b - a| < abs_tol + rel_tol * (a + b)

instance float_eq.dec (a b : ℚ) : Decidable (float_eq a b) :=
  inferInstanceAs (Decidable (|b - a| < abs_tol + rel_tol * (a + b)))

/-- Source `vec_sum`: `reduce(lambda x, y: x + y, vec)`.  On an empty vector
`reduce` raises `TypeError` (no initial value); this escapes uncaught, hence
`none`. -/
def vec_sum : List ℚ → Option ℚ
  | [] => none
  | x :: xs => some (xs.foldl (fun a y => a + y) x)

/-- Source `vec_norm(vec, n)`: `[(vec[i] / sum * n) for i in range(len(vec))]`.
A zero sum makes the float division raise `ZeroDivisionError` (uncaught here),
hence `none`; an empty vector already fails inside `vec_sum`. -/
def vec_norm (vec : List ℚ) (n : ℚ) : Option (List ℚ) :=
  match vec_sum vec with
  | none => none
  | some s => if s = 0 then none else some (vec.map (fun x => x / s * n))

/-! ## Bit-exact binary64 model for the stepper `frange`

The values flowing through `frange`'s loop are CPython floats, i.e. IEEE-754
binary64 numbers.  In the magnitude range this program exercises
(`0 ≤ |x| ≲ 32`, unit-last-place at least `2⁻⁵⁹` once `|x| ≥ 2⁻⁷`, and exactly
representable below that), every such float is an integer multiple of `2⁻⁵⁹`.
We therefore represent a float value `v` by the integer `v·2⁵⁹` and implement
IEEE addition as exact integer addition followed by rounding to 53 significant
bits, round half to even.  Overflow and subnormals are far outside the
program's range and are not modelled. -/

/-- Fuelled `⌊log₂ n⌋` for positive `n` (`0` for `n ≤ 1`); total and
kernel-reducible. -/
def log2fuel : ℕ → ℕ → ℕ
  | 0, _ => 0
  | f + 1, n => if n ≤ 1 then 0 else log2fuel f (n / 2) + 1

/-- Round a nonnegative scaled mantissa (value × 2⁵⁹) to 53 significant bits,
round half to even.  Values below 2⁵³ already fit in 53 bits. -/
def roundS (n : ℕ) : ℕ :=
  if n < 9007199254740992 then n
  else
    let k := log2fuel 64 n
    let d := 2 ^ (k - 52)
    let q := n / d
    let r := n % d
    (if 2 * r < d then q else if d < 2 * r then q + 1
     else if q % 2 = 0 then q else q + 1) * d

/-- Signed version of `roundS`. -/
def roundZ (z : ℤ) : ℤ :=
  if z < 0 then -(roundS (-z).toNat : ℤ) else (roundS z.toNat : ℤ)

/-- IEEE-754 binary64 addition on scaled representatives. -/
def faddZ (a c : ℤ) : ℤ := roundZ (a + c)

/-- Source `frange` loop on scaled representatives: append `a`, step
`a += c` (float add), stop once `a` passes `b` in the direction of `c`.
The fuel is a step budget far beyond anything the program runs. -/
def frangeZ : ℕ → ℤ → ℤ → ℤ → List ℤ
  | 0, _, _, _ => []
  | f + 1, a, b, c =>
    a :: (let a2 := faddZ a c
          if (0 < c ∧ b < a2) ∨ (c < 0 ∧ a2 < b) then [] else frangeZ f a2 b c)

/-- Power of two as a rational, for an integer exponent. -/
def pow2Q (k : ℤ) : ℚ := (2 : ℚ) ^ k

/-- Fuelled upward scan for `⌊log₂ q⌋` of `q ≥ 1`. -/
def log2up (f : ℕ) (q : ℚ) (k : ℤ) : ℤ :=
  if f = 0 then k
  else if pow2Q (k + 1) ≤ q then log2up (f - 1) q (k + 1) else k
termination_by f
decreasing_by omega

/-- Fuelled downward scan for `⌊log₂ q⌋` of `0 < q < 1`. -/
def log2down (f : ℕ) (q : ℚ) (k : ℤ) : ℤ :=
  if f = 0 then k
  else if q < pow2Q k then log2down (f - 1) q (k - 1) else k
termination_by f
decreasing_by omega

/-- Floor of `log₂ q` for positive `q` (by bounded search; the bound covers
every binary64 exponent). -/
def floorLog2Q (q : ℚ) : ℤ :=
  if 1 ≤ q then log2up 4096 q 0 else log2down 4096 q 0

/-- Round a rational to the nearest integer, half to even. -/
def roundHalfEvenQ (x : ℚ) : ℤ :=
  let n := ⌊x⌋
  let r := x - (n : ℚ)
  if r < 1 / 2 then n
  else if (1 : ℚ) / 2 < r then n + 1
  else if n % 2 = 0 then n else n + 1

/-- Nearest binary64 value of a positive rational (normal range). -/
def roundDoublePos (q : ℚ) : ℚ :=
  let k := floorLog2Q q
  let m := roundHalfEvenQ (q * pow2Q (52 - k))
  (m : ℚ) * pow2Q (k - 52)

/-- Nearest binary64 value of a rational: the value a Python float literal or
argument actually carries. -/
def roundDouble (q : ℚ) : ℚ :=
  if q = 0 then 0
  else if q < 0 then -roundDoublePos (-q) else roundDoublePos q

/-- Scaled (×2⁵⁹) integer representative of the binary64 value of `q`;
exact for the magnitudes `frange` is used with. -/
def toScaled (q : ℚ) : ℤ := roundHalfEvenQ (roundDouble q * 576460752303423488)

/-- Source `frange(a, b, c)`: emits the float-accumulated grid; the returned
flag records the "Step size zero." warning path (empty result). -/
def frange (a b c : ℚ) : List ℚ × Bool :=
  if float_eq c 0 then ([], true)
  else
    ((frangeZ 100000 (toScaled a) (toScaled b) (toScaled c)).map
      (fun (z : ℤ) => (z : ℚ) / 576460752303423488), false)

/-! ## Asset and Portfolio (Analysis.py, region Classes) -/

/-- Source class `Asset`.  `oid` models Python object identity (the class
defines no `__eq__`, so dictionary keys and `!=` compare identity). -/
structure Asset where
  price : ℚ
  name : String
  volatility : ℚ
  expected_return : ℚ
  oid : ℕ
deriving DecidableEq

/-- Placeholder used only to give total signatures to positional accessors;
every access the source performs is in bounds. -/
def defaultAsset : Asset := ⟨0, "", 0, 0, 0⟩

/-- Source class `Portfolio`: an ordered list of `[asset, number]` pairs and
the correlations dictionary (association list, newest entry first so that a
later `dict` assignment shadows an earlier one). -/
structure Portfolio where
  assets : List (Asset × ℚ)
  correlations : List ((Asset × Asset) × ℚ)
deriving DecidableEq

namespace Portfolio

def num_assets (p : Portfolio) : ℕ := p.assets.length

def add_asset (p : Portfolio) (a : Asset) (n : ℚ) : Portfolio :=
  { p with assets := p.assets ++ [(a, n)] }

def get_asset (p : Portfolio) (i : ℕ) : Asset :=
  (p.assets.getD i (defaultAsset, 0)).1

def get_asset_number (p : Portfolio) (i : ℕ) : ℚ :=
  (p.assets.getD i (defaultAsset, 0)).2

/-- Source `set_asset_number`: writes `assets[i][1]` when `i` is in range,
no-op otherwise (the source guards with `if i < len(self.assets)`). -/
def set_asset_number (p : Portfolio) (x : ℚ) (i : ℕ) : Portfolio :=
  { p with assets := p.assets.set i ((p.assets.getD i (defaultAsset, 0)).1, x) }

def get_value (p : Portfolio) : ℚ :=
  p.assets.foldl (fun t a => t + a.1.price * a.2) 0

def get_asset_value (p : Portfolio) (i : ℕ) : ℚ :=
  (get_asset p i).price * get_asset_number p i

/-- Source `get_asset_fractional_value`: the `ZeroDivisionError` handler
returns `0.0` when `get_value` is zero, which is the rational `x / 0 = 0`
convention. -/
def get_asset_fractional_value (p : Portfolio) (i : ℕ) : ℚ :=
  get_asset_value p i / get_value p

/-- Source `set_asset_number_with_value`: sets `assets[i][1] = v / price`;
a zero price raises `ZeroDivisionError`, caught with a warning and no state
change.  The returned flag records that warning. -/
def set_asset_number_with_value (p : Portfolio) (v : ℚ) (i : ℕ) :
    Portfolio × Bool :=
  if i < p.assets.length then
    if (get_asset p i).price = 0 then (p, true)
    else (set_asset_number p (v / (get_asset p i).price) i, false)
  else (p, false)

def set_asset_correlation (p : Portfolio) (a1 a2 : Asset) (c : ℚ) : Portfolio :=
  if a1 ≠ a2 then
    { p with correlations := ((a2, a1), c) :: ((a1, a2), c) :: p.correlations }
  else p

def lookupCorr (l : List ((Asset × Asset) × ℚ)) (k : Asset × Asset) : Option ℚ :=
  (l.find? (fun e => e.1 == k)).map (fun e => e.2)

def get_asset_correlation (p : Portfolio) (a1 a2 : Asset) : ℚ :=
  match lookupCorr p.correlations (a1, a2) with
  | some c => c
  | none =>
    match lookupCorr p.correlations (a2, a1) with
    | some c => c
    | none => 0

def get_asset_distribution (p : Portfolio) : List ℚ :=
  (List.range p.num_assets).map (get_asset_fractional_value p)

/-- Warnings `set_asset_distribution` can report. -/
inductive Warn where
  | numAssets
  | normalization
  | priceValue
deriving DecidableEq

/-- Source `set_asset_distribution`: length check, normalization check
(`float_eq(vec_sum(new_distrib), 1.0)`), then per-index
`set_asset_number_with_value(total * new_distrib[i], i)` with `total` the
value before any update.  `vec_sum` of the empty vector raises an uncaught
`TypeError` (only reachable when both the portfolio and the vector are
empty), hence the `Option`. -/
def set_asset_distribution (p : Portfolio) (nd : List ℚ) :
    Option (Portfolio × List Warn) :=
  if nd.length ≠ p.num_assets then some (p, [.numAssets])
  else
    match vec_sum nd with
    | none => none
    | some s =>
      if ¬ float_eq s 1 then some (p, [.normalization])
      else
        some ((List.range nd.length).foldl
          (fun acc i =>
            let r := set_asset_number_with_value acc.1 (get_value p * nd.getD i 0) i
            (r.1, acc.2 ++ (if r.2 then [Warn.priceValue] else [])))
          (p, []))

/-- Source `get_volatility`, up to the final `math.sqrt`: the accumulated
`total` (diagonal squares plus the `2·corr·f_i·f_j` terms for `j ∈ [i, num)`),
with the early `return 0.0` for an empty portfolio.  The method's return value
is `Real.sqrt` of this (taken in theorem statements); `math.sqrt` would raise
on a negative total, which the scan embeddings surface as `none`. -/
def get_volatility_sq (p : Portfolio) : ℚ :=
  if p.num_assets = 0 then 0
  else
    let n := p.num_assets
    let diag := (List.range n).foldl
      (fun t i => t + ((get_asset p i).volatility * get_asset_fractional_value p i) ^ 2) 0
    (List.range n).foldl
      (fun t i =>
        (List.range' i (n - i)).foldl
          (fun s j => s + 2 * get_asset_correlation p (get_asset p i) (get_asset p j) *
            get_asset_fractional_value p i * get_asset_fractional_value p j) t)
      diag

def get_expected_return (p : Portfolio) : ℚ :=
  (List.range p.num_assets).foldl
    (fun t i => t + (get_asset p i).expected_return * get_asset_fractional_value p i) 0

end Portfolio

/-- External asset-stat provider interface (`Datasource.DataSource`), as the
`Portfolio` constructor consumes it. -/
structure DataSourceStat where
  get_name : String
  volatility : ℚ
  expected_return : ℚ

/-- Source `Portfolio.__init__`.  `cov i j` stands for
`data_source[i].covariance_with(data_source[j])`.  After the optional
provider loop, the constructor unconditionally runs
`norm = vec_sum([x[1] for x in self.assets])`, which raises `TypeError`
for an empty portfolio (hence `none`), then normalizes every quantity to
`1.0 / norm`. -/
def portfolio_init (data_source : Option (List DataSourceStat))
    (cov : ℕ → ℕ → ℚ) : Option Portfolio :=
  let p0 : Portfolio := ⟨[], []⟩
  let p1 : Portfolio :=
    match data_source with
    | none => p0
    | some ds =>
      let pA := ds.enum.foldl
        (fun q e =>
          q.add_asset ⟨1, e.2.get_name, e.2.volatility, e.2.expected_return, e.1⟩ 1) p0
      let num := pA.num_assets
      if 1 < num then
        (List.range num).foldl
          (fun q i =>
            (List.range num).foldl
              (fun q2 j =>
                if i ≠ j then
                  q2.set_asset_correlation (q2.get_asset i) (q2.get_asset j) (cov i j)
                else q2) q) pA
      else pA
  match vec_sum (p1.assets.map (fun a => a.2)) with
  | none => none
  | some norm =>
    some ((List.range p1.num_assets).foldl
      (fun q i => q.set_asset_number (1 / norm) i) p1)

/-! ## PortfolioAnalysis (Analysis.py)

The class holds one mutable `Portfolio`; each method below takes that
portfolio as an explicit argument and returns the mutated portfolio next to
the method's Python return value.  Randomness is passed in as explicit draw
lists (one uniform draw per asset per trial), making the Monte-Carlo methods
deterministic functions of the draw sequence. -/

/-- Sample point emitted by the scans: `(volatility², expected_return,
distribution)`.  The first component carries the squared volatility (the
`total` under the source's `math.sqrt`); the source stores its square root,
a strictly monotone function of it on the valid (nonnegative) domain. -/
abbrev Sample : Type := ℚ × ℚ × List ℚ

open Portfolio in
/-- Loop body of `scan_two_assets`: walks the grid, mutating `cdist` in place
(`cdist[i] = x; cdist[j] = 1.0 - x`), setting the distribution, and recording
the `(volatility, expected_return)` pair per iteration.  Returns those pairs,
the final value of `cdist`, and the mutated portfolio.  A negative volatility
total would make `math.sqrt` raise (`none`).  Out-of-range `i`, `j` would
raise `IndexError` in Python; `List.set` silently no-ops, and every caller in
the claims uses in-range indices. -/
def scanTwoAux (i j : ℕ) : Portfolio → List ℚ → List ℚ →
    Option (List (ℚ × ℚ) × List ℚ × Portfolio)
  | p, [], cdist => some ([], cdist, p)
  | p, x :: xs, cdist =>
    let cdist2 := (cdist.set i x).set j (1 - x)
    match p.set_asset_distribution cdist2 with
    | none => none
    | some (p2, _) =>
      if p2.get_volatility_sq < 0 then none
      else
        match scanTwoAux i j p2 xs cdist2 with
        | none => none
        | some (prs, cf, pf) =>
          some ((p2.get_volatility_sq, p2.get_expected_return) :: prs, cf, pf)

/-- Source `scan_two_assets(i, j, res)`.  The Python loop appends the very
list object `cdist` into every result tuple and keeps mutating it, so after
the call every returned tuple's third component holds the *final* value of
`cdist`; the embedding records exactly that observable value. -/
def scan_two_assets (p : Portfolio) (i j : ℕ) (res : ℚ) :
    Option (List Sample × Portfolio) :=
  match scanTwoAux i j p (frange 0 1 res).1 (List.replicate p.num_assets 0) with
  | none => none
  | some (prs, cfinal, pfinal) =>
    some (prs.map (fun pr => (pr.1, pr.2, cfinal)), pfinal)

/-- Ordered pair indices `(0,1),(0,2),…,(0,n-1),(1,2),…` scanned by
`scan_asset_pairs`. -/
def pairIndices (n : ℕ) : List (ℕ × ℕ) :=
  (List.range (n - 1)).flatMap (fun i => (List.range' (i + 1) (n - 1 - i)).map (fun j => (i, j)))

def scanPairsAux (res : ℚ) : List (ℕ × ℕ) → Portfolio →
    Option (List Sample × Portfolio)
  | [], p => some ([], p)
  | (i, j) :: rest, p =>
    match scan_two_assets p i j res with
    | none => none
    | some (samples, p2) =>
      match scanPairsAux res rest p2 with
      | none => none
      | some (samples2, pf) => some (samples ++ samples2, pf)

/-- Source `scan_asset_pairs(res)`: concatenates `scan_two_assets(i, j, res)`
over all pairs `i < j`, threading the mutated portfolio. -/
def scan_asset_pairs (p : Portfolio) (res : ℚ) : Option (List Sample × Portfolio) :=
  scanPairsAux res (pairIndices p.num_assets) p

open Portfolio in
/-- Trial loop of `minimum_variance_montecarlo`: normalizes each draw, sets
it, and keeps the strictly smaller volatility (`if cvol < min_vol`), so the
first minimum seen wins ties.  Comparisons are performed on the volatility
totals; the source compares their square roots, the same order on the
nonnegative domain, and a negative total would make `math.sqrt` raise
(`none`, as would the `ZeroDivisionError` inside `vec_norm`). -/
def mvmcAux : List (List ℚ) → Portfolio → List ℚ → ℚ →
    Option (Portfolio × List ℚ × ℚ)
  | [], p, bd, bv => some (p, bd, bv)
  | draw :: rest, p, bd, bv =>
    match vec_norm draw 1 with
    | none => none
    | some cdist =>
      match p.set_asset_distribution cdist with
      | none => none
      | some (p2, _) =>
        let cv := p2.get_volatility_sq
        if cv < 0 then none
        else if cv < bv then mvmcAux rest p2 cdist cv
        else mvmcAux rest p2 bd bv

open Portfolio in
/-- Source `minimum_variance_montecarlo(num)` with the randomness explicit:
`seed` is the initial extra sample's draw, `trials` the `num` loop draws.
Returns the Python pair (with the volatility squared, see `Sample`) and the
portfolio, finally set to the best distribution found. -/
def minimum_variance_montecarlo (p : Portfolio) (seed : List ℚ)
    (trials : List (List ℚ)) : Option ((ℚ × ℚ) × Portfolio) :=
  match vec_norm seed 1 with
  | none => none
  | some d0 =>
    match p.set_asset_distribution d0 with
    | none => none
    | some (p1, _) =>
      let v0 := p1.get_volatility_sq
      if v0 < 0 then none
      else
        match mvmcAux trials p1 d0 v0 with
        | none => none
        | some (p2, bd, _) =>
          match p2.set_asset_distribution bd with
          | none => none
          | some (pf, _) =>
            if pf.get_volatility_sq < 0 then none
            else some ((pf.get_volatility_sq, pf.get_expected_return), pf)

/-! ## Convex hull (`asset_dist_hull`) -/

/-- Source nested `cross_z(o, a, b)`: z-component of the 2d cross product of
`a - o` and `b - o`, on the `(volatility, expected_return)` projection. -/
def cross_z (o a b : Sample) : ℚ :=
  (a.1 - o.1) * (b.2.1 - o.2.1) - (a.2.1 - o.2.1) * (b.1 - o.1)

/-- Stable insertion of `x` into a key-sorted list: `x` goes before the first
element whose key is not smaller, so equal keys keep their original order
(Python's sorts are stable). -/
def insortBy (key : Sample → ℚ) (x : Sample) : List Sample → List Sample
  | [] => [x]
  | y :: ys => if key y < key x then y :: insortBy key x ys else x :: y :: ys

/-- Stable sort by a key (extensionally the result of Python's stable
`list.sort(key=...)`). -/
def sortByKey (key : Sample → ℚ) (l : List Sample) : List Sample :=
  l.foldr (insortBy key) []

/-- The source's two stable sorts: by `x[1]`, then by `x[0]`. -/
def sortPoints (l : List Sample) : List Sample :=
  sortByKey (fun s => s.1) (sortByKey (fun s => s.2.1) l)

/-- Deduplication pass: delete each point whose two coordinates are
`float_eq`-close to the last kept predecessor's. -/
def dedupAux : Sample → List Sample → List Sample
  | _, [] => []
  | prev, y :: ys =>
    if float_eq prev.1 y.1 ∧ float_eq prev.2.1 y.2.1 then dedupAux prev ys
    else y :: dedupAux y ys

def dedupPoints : List Sample → List Sample
  | [] => []
  | x :: xs => x :: dedupAux x xs

/-- Pop loop of the chain builder, on a reversed chain (head = most recently
accepted point): pop the head while the chain holds more than 3 points and
`cross_z(chain[-2], chain[-1], p) < 0.0`. -/
def popChain : List Sample → Sample → List Sample
  | b :: a :: rest, pt =>
    if 2 ≤ rest.length ∧ cross_z a b pt < 0 then popChain (a :: rest) pt
    else b :: a :: rest
  | ch, _ => ch

/-- One chain of the monotone-chain construction, in scan order. -/
def buildChain (l : List Sample) : List Sample :=
  (l.foldl (fun ch pt => pt :: popChain ch pt) []).reverse

/-- Source `asset_dist_hull`: early returns for fewer than 2 (unique) points,
then lower chain over the sorted deduplicated points, upper chain over their
reverse, concatenated with each chain's final point dropped (`[:-1]`). -/
def asset_dist_hull (dist_set : List Sample) : List Sample :=
  if dist_set.length < 2 then dist_set
  else
    let sp := dedupPoints (sortPoints dist_set)
    if sp.length < 2 then sp
    else (buildChain sp).dropLast ++ (buildChain sp.reverse).dropLast

/-! ### Spec-side hull definitions (for comparison with the claims' words) -/

/-- Pop rule as the claim words it: popping already with at least 3 accepted
points (chain length ≥ 3) and a clockwise turn.  Differs from the source's
`len(chain) > 3`. -/
def popChainAtThree : List Sample → Sample → List Sample
  | b :: a :: rest, pt =>
    if 1 ≤ rest.length ∧ cross_z a b pt < 0 then popChainAtThree (a :: rest) pt
    else b :: a :: rest
  | ch, _ => ch

def buildChainAtThree (l : List Sample) : List Sample :=
  (l.foldl (fun ch pt => pt :: popChainAtThree ch pt) []).reverse

/-- The hull the claim's pop rule would produce (same surrounding steps as
the source). -/
def hullAtThree (dist_set : List Sample) : List Sample :=
  if dist_set.length < 2 then dist_set
  else
    let sp := dedupPoints (sortPoints dist_set)
    if sp.length < 2 then sp
    else (buildChainAtThree sp).dropLast ++ (buildChainAtThree sp.reverse).dropLast

/-- Centroid of a point list (spec language: used only to state the
"re-sorted around its centroid" property). -/
def centroid (l : List Sample) : ℚ × ℚ :=
  ((l.map (fun s => s.1)).sum / l.length, (l.map (fun s => s.2.1)).sum / l.length)

/-- Angular half-plane index around `c`: upper half (including the positive
x-axis) first. -/
def halfIdx (c : ℚ × ℚ) (p : Sample) : ℕ :=
  if 0 < p.2.1 - c.2 ∨ (p.2.1 - c.2 = 0 ∧ 0 < p.1 - c.1) then 0 else 1

/-- Counterclockwise angular comparison around `c` (half-plane, then cross
product of the two direction vectors). -/
def angLt (c : ℚ × ℚ) (p q : Sample) : Prop :=
  halfIdx c p < halfIdx c q ∨
    (halfIdx c p = halfIdx c q ∧
      0 < (p.1 - c.1) * (q.2.1 - c.2) - (p.2.1 - c.2) * (q.1 - c.1))

instance angLt.dec (c : ℚ × ℚ) (p q : Sample) : Decidable (angLt c p q) := by
  unfold angLt
  infer_instance

def insortAng (c : ℚ × ℚ) (x : Sample) : List Sample → List Sample
  | [] => [x]
  | y :: ys => if angLt c y x then y :: insortAng c x ys else x :: y :: ys

/-- Distinct points of a list, first occurrences kept in order. -/
def dedupExact (l : List Sample) : List Sample :=
  l.foldl (fun acc x => if x ∈ acc then acc else acc ++ [x]) []

/-- Distinct points of `l` (exact equality), re-sorted counterclockwise
around the centroid of the distinct points: the spec's "re-sorted around its
centroid" polygon. -/
def resortCentroid (l : List Sample) : List Sample :=
  (dedupExact l).foldr (insortAng (centroid (dedupExact l))) []

/-- A cyclic point sequence is a convex counterclockwise polygon: no
consecutive triple turns clockwise. -/
def convexCyclic (l : List Sample) : Prop :=
  ∀ k ∈ List.range l.length,
    0 ≤ cross_z (l.getD k (0, 0, [])) (l.getD ((k + 1) % l.length) (0, 0, []))
      (l.getD ((k + 2) % l.length) (0, 0, []))

instance convexCyclic.dec (l : List Sample) : Decidable (convexCyclic l) := by
  unfold convexCyclic
  infer_instance

/-! ## Derived definitions used by the lemmas and claims -/

namespace Portfolio

/-- Invariant maintained by `set_asset_correlation`: a pair of identical
assets is never stored in the correlations dictionary. -/
def SelfFree (p : Portfolio) : Prop := ∀ e ∈ p.correlations, e.1.1 ≠ e.1.2

/-- Per-index update performed by the success path of
`set_asset_distribution` (with `total` the value captured before any
update). -/
def updEntry (total : ℚ) (nd : List ℚ) (i : ℕ) (a : Asset × ℚ) : Asset × ℚ :=
  if a.1.price = 0 then a else (a.1, total * nd.getD i 0 / a.1.price)

/-- Functional description of the success path of `set_asset_distribution`:
every quantity with a nonzero price becomes `value · target_i / price_i`;
zero-price entries and the correlations are untouched. -/
def distributed (p : Portfolio) (nd : List ℚ) : Portfolio :=
  ⟨p.assets.mapIdx (updEntry p.get_value nd), p.correlations⟩

/-- Warnings reported on the success path: one `priceValue` condition per
zero-price holding index. -/
def priceWarns (p : Portfolio) (m : ℕ) : List Warn :=
  (List.range m).flatMap (fun i => if (p.get_asset i).price = 0 then [Warn.priceValue] else [])

/-- State invariant along a scan: the mutated portfolio keeps the same
assets (hence prices and volatilities), correlations, and total value as the
portfolio the scan started from. -/
def Inv (p q : Portfolio) : Prop :=
  q.num_assets = p.num_assets ∧ (∀ i, q.get_asset i = p.get_asset i) ∧
    q.correlations = p.correlations ∧ q.get_value = p.get_value

end Portfolio

/-- Normalized draw: what `vec_norm(draw, 1.0)` returns on a usable draw. -/
def normDist (v : List ℚ) : List ℚ := v.map (fun x => x / v.sum)

/-- Volatility total of the start portfolio evaluated at a distribution:
the pure function of `(assets, couplings, distribution)` the scans compute
step by step. -/
def volAt (p : Portfolio) (d : List ℚ) : ℚ := (p.distributed d).get_volatility_sq

/-- Expected return of the start portfolio evaluated at a distribution. -/
def retAt (p : Portfolio) (d : List ℚ) : ℚ := (p.distributed d).get_expected_return

/-- Running minimum with "first seen wins" tie-break (strict improvement
only), over `(distribution, volatility)` pairs. -/
def runBest : List (List ℚ × ℚ) → List ℚ × ℚ → List ℚ × ℚ
  | [], acc => acc
  | (d, v) :: rest, acc =>
    if v < acc.2 then runBest rest (d, v) else runBest rest acc

/-! ## Concrete example assets and portfolios used by witnesses -/

def assetA : Asset := ⟨1, "A", 3, 1, 0⟩

def assetB : Asset := ⟨1, "B", 5, 2, 1⟩

def twoPortfolio : Portfolio := ⟨[(assetA, 1/2), (assetB, 1/2)], []⟩

/-- Two-asset portfolio with an anti-correlated pair stored: the coupling is
negative, yet the volatility total `9f₁² + 25f₂² − 2f₁f₂` is nonnegative at
every distribution. -/
def antiPortfolio : Portfolio :=
  ⟨[(assetA, 1/2), (assetB, 1/2)], [((assetA, assetB), -1)]⟩

def onePortfolio : Portfolio := ⟨[(⟨1, "C", 1, 0, 0⟩, 1)], []⟩

/-! ## Bridging lemmas: accumulation loops as sums -/

theorem foldl_add_eq {α : Type} (g : α → ℚ) (c : ℚ) (l : List α) :
    l.foldl (fun t a => t + g a) c = c + (l.map g).sum := by
  induction l generalizing c with
  | nil => simp
  | cons x xs ih => simp [ih (c + g x), add_assoc]

theorem map_sum_eq_range_sum {α : Type} (g : α → ℚ) (d : α) (l : List α) :
    (l.map g).sum = ∑ i in Finset.range l.length, g (l.getD i d) := by
  induction l with
  | nil => simp
  | cons x xs ih =>
    rw [List.map_cons, List.sum_cons, ih, List.length_cons, Finset.sum_range_succ']
    simp [List.getD, add_comm]

namespace Portfolio

theorem get_value_eq_sum (p : Portfolio) :
    p.get_value = ∑ i in Finset.range p.num_assets,
      (p.get_asset i).price * p.get_asset_number i := by
  unfold get_value num_assets get_asset get_asset_number
  rw [foldl_add_eq (fun a => a.1.price * a.2) 0 p.assets, zero_add,
    map_sum_eq_range_sum (fun a => a.1.price * a.2) (defaultAsset, 0) p.assets]

theorem foldl_range_add_eq (f : ℕ → ℚ) (c : ℚ) (n : ℕ) :
    (List.range n).foldl (fun t i => t + f i) c = c + ∑ i in Finset.range n, f i := by
  induction n with
  | zero => simp
  | succ n ih =>
    rw [List.range_succ, List.foldl_append, ih, Finset.sum_range_succ]
    simp [add_assoc]

theorem get_expected_return_eq_sum (p : Portfolio) :
    p.get_expected_return = ∑ i in Finset.range p.num_assets,
      (p.get_asset i).expected_return * p.get_asset_fractional_value i := by
  unfold get_expected_return
  rw [foldl_range_add_eq
    (fun i => (p.get_asset i).expected_return * p.get_asset_fractional_value i) 0
    p.num_assets, zero_add]

end Portfolio

theorem foldl_range'_add_eq (g : ℕ → ℚ) (c : ℚ) (s m : ℕ) :
    (List.range' s m).foldl (fun t j => t + g j) c = c + ∑ j in Finset.Ico s (s + m), g j := by
  induction m with
  | zero => simp
  | succ m ih =>
    have hsm : s + (m + 1) = (s + m) + 1 := by omega
    rw [List.range'_1_concat, List.foldl_append, ih, hsm,
      Finset.sum_Ico_succ_top (Nat.le_add_right s m)]
    simp [add_assoc]

namespace Portfolio

theorem get_volatility_sq_eq_sum (p : Portfolio) (hn : p.num_assets ≠ 0) :
    p.get_volatility_sq =
      (∑ i in Finset.range p.num_assets,
        ((p.get_asset i).volatility * p.get_asset_fractional_value i) ^ 2) +
      ∑ i in Finset.range p.num_assets, ∑ j in Finset.Ico i p.num_assets,
        2 * p.get_asset_correlation (p.get_asset i) (p.get_asset j) *
          p.get_asset_fractional_value i * p.get_asset_fractional_value j := by
  unfold get_volatility_sq
  rw [if_neg hn]
  simp only [foldl_range'_add_eq, foldl_range_add_eq, zero_add]
  congr 1
  refine Finset.sum_congr rfl (fun i hi => ?_)
  rw [Nat.add_sub_cancel' (le_of_lt (Finset.mem_range.mp hi))]



theorem SelfFree_set_asset_correlation (p : Portfolio) (h : SelfFree p)
    (a1 a2 : Asset) (c : ℚ) : SelfFree (p.set_asset_correlation a1 a2 c) := by
  unfold set_asset_correlation
  by_cases hne : a1 ≠ a2
  · rw [if_pos hne]
    intro e he
    rw [List.mem_cons, List.mem_cons] at he
    rcases he with he | he | he
    · subst he
      exact fun hx => hne hx.symm
    · subst he
      exact hne
    · exact h e he
  · rw [if_neg hne]
    exact h

theorem get_asset_correlation_self (p : Portfolio) (h : SelfFree p) (a : Asset) :
    p.get_asset_correlation a a = 0 := by
  unfold get_asset_correlation lookupCorr
  cases hf : p.correlations.find? (fun e => e.1 == (a, a)) with
  | none => simp
  | some e =>
    exfalso
    have hmem := List.mem_of_find?_eq_some hf
    have hp := List.find?_some hf
    have : e.1 = (a, a) := by
      exact beq_iff_eq.mp hp
    exact h e hmem (by rw [this])

end Portfolio

namespace Portfolio

theorem eq_of_fields {p q : Portfolio} (hA : p.assets = q.assets)
    (hC : p.correlations = q.correlations) : p = q := by
  cases p
  cases q
  cases hA
  cases hC
  rfl



theorem setDistFold_char (p : Portfolio) (nd : List ℚ) (total : ℚ) (m : ℕ)
    (hm : m ≤ p.assets.length) :
    ((List.range m).foldl
      (fun acc i =>
        let r := set_asset_number_with_value acc.1 (total * nd.getD i 0) i
        (r.1, acc.2 ++ (if r.2 then [Warn.priceValue] else []))) (p, [])).1.correlations
      = p.correlations ∧
    ((List.range m).foldl
      (fun acc i =>
        let r := set_asset_number_with_value acc.1 (total * nd.getD i 0) i
        (r.1, acc.2 ++ (if r.2 then [Warn.priceValue] else []))) (p, [])).1.assets.length
      = p.assets.length ∧
    (∀ i, ((List.range m).foldl
      (fun acc i =>
        let r := set_asset_number_with_value acc.1 (total * nd.getD i 0) i
        (r.1, acc.2 ++ (if r.2 then [Warn.priceValue] else []))) (p, [])).1.assets[i]?
      = if i < m then Option.map (updEntry total nd i) p.assets[i]? else p.assets[i]?) ∧
    ((List.range m).foldl
      (fun acc i =>
        let r := set_asset_number_with_value acc.1 (total * nd.getD i 0) i
        (r.1, acc.2 ++ (if r.2 then [Warn.priceValue] else []))) (p, [])).2
      = priceWarns p m := by
  induction m with
  | zero =>
    refine ⟨rfl, rfl, fun i => by simp, rfl⟩
  | succ m ih =>
    obtain ⟨hc, hl, hpt, hw⟩ := ih (le_of_lt (Nat.lt_of_succ_le hm))
    have hmlt : m < p.assets.length := Nat.lt_of_succ_le hm
    rw [List.range_succ, List.foldl_append, List.foldl_cons, List.foldl_nil]
    obtain ⟨am, ham⟩ : ∃ a, p.assets[m]? = some a :=
      ⟨p.assets.get ⟨m, hmlt⟩, List.getElem?_eq_getElem hmlt⟩
    set F := (List.range m).foldl
      (fun acc i =>
        let r := set_asset_number_with_value acc.1 (total * nd.getD i 0) i
        (r.1, acc.2 ++ (if r.2 then [Warn.priceValue] else []))) (p, []) with hF
    have hFm : F.1.assets[m]? = some am := by
      rw [hpt m, if_neg (lt_irrefl m), ham]
    have hgam : F.1.get_asset m = am.1 := by
      unfold get_asset
      rw [List.getD_eq_getElem?_getD, hFm]
      rfl
    have hgap : p.get_asset m = am.1 := by
      unfold get_asset
      rw [List.getD_eq_getElem?_getD, ham]
      rfl
    unfold set_asset_number_with_value
    rw [hgam]
    rw [if_pos (by rw [hl]; exact hmlt)]
    by_cases hz : am.1.price = 0
    · rw [if_pos hz]
      refine ⟨hc, hl, fun i => ?_, ?_⟩
      · rcases Nat.lt_trichotomy i m with hlt | heq | hgt
        · rw [hpt i, if_pos hlt, if_pos (Nat.lt_succ_of_lt hlt)]
        · subst heq
          rw [hFm, if_pos (Nat.lt_succ_self i), ham]
          show _ = some (updEntry total nd i am)
          unfold updEntry
          rw [if_pos hz]
        · rw [hpt i, if_neg (by omega), if_neg (by omega)]
      · show F.2 ++ _ = _
        rw [hw]
        unfold priceWarns
        rw [List.range_succ, List.flatMap_append]
        simp [hgap, hz]
    · rw [if_neg hz]
      refine ⟨hc, ?_, fun i => ?_, ?_⟩
      · show (F.1.assets.set m _).length = _
        rw [List.length_set]
        exact hl
      · show (F.1.assets.set m ((F.1.assets.getD m (defaultAsset, 0)).1, _))[i]? = _
        rcases Nat.lt_trichotomy i m with hlt | heq | hgt
        · rw [List.getElem?_set_ne (by omega), hpt i, if_pos hlt,
            if_pos (Nat.lt_succ_of_lt hlt)]
        · subst heq
          rw [List.getElem?_set_self (by rw [hl]; exact hmlt), ham]
          have hfst : (F.1.assets.getD i (defaultAsset, 0)).1 = am.1 := by
            rw [List.getD_eq_getElem?_getD, hFm]
            rfl
          rw [if_pos (Nat.lt_succ_self i), hfst]
          show some _ = some (updEntry total nd i am)
          unfold updEntry
          rw [if_neg hz]
        · rw [List.getElem?_set_ne (by omega), hpt i, if_neg (by omega), if_neg (by omega)]
      · show F.2 ++ _ = _
        rw [hw]
        unfold priceWarns
        rw [List.range_succ, List.flatMap_append]
        simp [hgap, hz]

theorem set_asset_distribution_success (p : Portfolio) (nd : List ℚ) (s : ℚ)
    (hlen : nd.length = p.num_assets) (hs : vec_sum nd = some s)
    (hfe : float_eq s 1) :
    p.set_asset_distribution nd = some (p.distributed nd, priceWarns p nd.length) := by
  unfold set_asset_distribution
  rw [if_neg (not_ne_iff.mpr hlen), hs]
  dsimp only
  rw [if_neg (not_not_intro hfe)]
  obtain ⟨hc, hl, hpt, hw⟩ := setDistFold_char p nd p.get_value nd.length
    (le_of_eq hlen)
  congr 1
  refine Prod.ext ?_ hw
  refine eq_of_fields ?_ hc
  refine List.ext_getElem? ?_
  intro i
  rw [hpt i]
  show _ = (p.assets.mapIdx (updEntry p.get_value nd))[i]?
  rw [List.getElem?_mapIdx]
  by_cases hi : i < nd.length
  · rw [if_pos hi]
  · rw [if_neg hi]
    have : p.assets[i]? = none := by
      rw [List.getElem?_eq_none_iff]
      unfold num_assets at hlen
      omega
    rw [this]
    rfl

end Portfolio

theorem sum_eq_range_getD (l : List ℚ) :
    l.sum = ∑ i in Finset.range l.length, l.getD i 0 := by
  have h := map_sum_eq_range_sum (fun x => x) 0 l
  simpa using h

namespace Portfolio

theorem correlations_distributed (p : Portfolio) (nd : List ℚ) :
    (p.distributed nd).correlations = p.correlations := rfl

theorem num_assets_distributed (p : Portfolio) (nd : List ℚ) :
    (p.distributed nd).num_assets = p.num_assets := by
  unfold distributed num_assets
  exact List.length_mapIdx

theorem assets_distributed_getElem? (p : Portfolio) (nd : List ℚ) (i : ℕ) :
    (p.distributed nd).assets[i]? =
      Option.map (updEntry p.get_value nd i) p.assets[i]? := by
  unfold distributed
  exact List.getElem?_mapIdx

theorem get_asset_distributed (p : Portfolio) (nd : List ℚ) (i : ℕ) :
    (p.distributed nd).get_asset i = p.get_asset i := by
  unfold get_asset
  rw [List.getD_eq_getElem?_getD, List.getD_eq_getElem?_getD,
    assets_distributed_getElem?]
  cases p.assets[i]? with
  | none => rfl
  | some a =>
    show (updEntry p.get_value nd i a).1 = a.1
    unfold updEntry
    by_cases hz : a.1.price = 0
    · rw [if_pos hz]
    · rw [if_neg hz]

theorem get_asset_number_distributed (p : Portfolio) (nd : List ℚ) (i : ℕ)
    (hi : i < p.num_assets) (hp : (p.get_asset i).price ≠ 0) :
    (p.distributed nd).get_asset_number i =
      p.get_value * nd.getD i 0 / (p.get_asset i).price := by
  unfold num_assets at hi
  obtain ⟨a, ha⟩ : ∃ a, p.assets[i]? = some a :=
    ⟨p.assets.get ⟨i, hi⟩, List.getElem?_eq_getElem hi⟩
  have hga : p.get_asset i = a.1 := by
    unfold get_asset
    rw [List.getD_eq_getElem?_getD, ha]
    rfl
  unfold get_asset_number
  rw [List.getD_eq_getElem?_getD, assets_distributed_getElem?, ha]
  show (updEntry p.get_value nd i a).2 = _
  unfold updEntry
  rw [hga] at hp
  rw [if_neg hp, hga]

theorem get_asset_number_distributed_zero (p : Portfolio) (nd : List ℚ) (i : ℕ)
    (hp : (p.get_asset i).price = 0) :
    (p.distributed nd).get_asset_number i = p.get_asset_number i := by
  unfold get_asset_number
  rw [List.getD_eq_getElem?_getD, List.getD_eq_getElem?_getD,
    assets_distributed_getElem?]
  cases ha : p.assets[i]? with
  | none => rfl
  | some a =>
    show (updEntry p.get_value nd i a).2 = a.2
    have hga : p.get_asset i = a.1 := by
      unfold get_asset
      rw [List.getD_eq_getElem?_getD, ha]
      rfl
    unfold updEntry
    rw [if_pos (by rw [← hga]; exact hp)]

theorem get_value_distributed (p : Portfolio) (nd : List ℚ)
    (hlen : nd.length = p.num_assets)
    (hall : ∀ i, i < p.num_assets → (p.get_asset i).price ≠ 0) :
    (p.distributed nd).get_value = p.get_value * nd.sum := by
  rw [get_value_eq_sum, num_assets_distributed]
  have hterm : ∀ i ∈ Finset.range p.num_assets,
      ((p.distributed nd).get_asset i).price * (p.distributed nd).get_asset_number i
        = p.get_value * nd.getD i 0 := by
    intro i hi
    have hi' := Finset.mem_range.mp hi
    rw [get_asset_distributed, get_asset_number_distributed p nd i hi' (hall i hi'),
      mul_comm ((p.get_asset i).price), div_mul_cancel₀ _ (hall i hi')]
  rw [Finset.sum_congr rfl hterm, ← Finset.mul_sum, sum_eq_range_getD nd, hlen]

theorem frac_distributed (p : Portfolio) (nd : List ℚ)
    (hlen : nd.length = p.num_assets)
    (hall : ∀ i, i < p.num_assets → (p.get_asset i).price ≠ 0)
    (hV : p.get_value ≠ 0) (hsum : nd.sum = 1) (i : ℕ) (hi : i < p.num_assets) :
    (p.distributed nd).get_asset_fractional_value i = nd.getD i 0 := by
  unfold get_asset_fractional_value get_asset_value
  rw [get_value_distributed p nd hlen hall, hsum, mul_one, get_asset_distributed,
    get_asset_number_distributed p nd i hi (hall i hi),
    mul_comm ((p.get_asset i).price), div_mul_cancel₀ _ (hall i hi),
    mul_div_cancel_left₀ _ hV]

theorem get_asset_distribution_distributed (p : Portfolio) (nd : List ℚ)
    (hlen : nd.length = p.num_assets)
    (hall : ∀ i, i < p.num_assets → (p.get_asset i).price ≠ 0)
    (hV : p.get_value ≠ 0) (hsum : nd.sum = 1) :
    (p.distributed nd).get_asset_distribution = nd := by
  unfold get_asset_distribution
  rw [num_assets_distributed]
  refine List.ext_getElem? ?_
  intro i
  rw [List.getElem?_map]
  by_cases hi : i < p.num_assets
  · rw [List.getElem?_range hi]
    have hnd : nd[i]? = some (nd.getD i 0) := by
      have hi' : i < nd.length := by omega
      rw [List.getD_eq_getElem?_getD, List.getElem?_eq_getElem hi']
      rfl
    rw [hnd]
    show some _ = _
    rw [frac_distributed p nd hlen hall hV hsum i hi]
  · have h1 : (List.range p.num_assets)[i]? = none := by
      rw [List.getElem?_eq_none_iff, List.length_range]
      omega
    have h2 : nd[i]? = none := by
      rw [List.getElem?_eq_none_iff]
      omega
    rw [h1, h2]
    rfl

end Portfolio

theorem foldl_add_init (x : ℚ) (xs : List ℚ) :
    xs.foldl (fun a y => a + y) x = x + xs.sum := by
  induction xs generalizing x with
  | nil => simp
  | cons y ys ih => simp [ih (x + y), add_assoc]

theorem vec_sum_eq (l : List ℚ) (h : l ≠ []) : vec_sum l = some l.sum := by
  match l, h with
  | x :: xs, _ =>
    show some (xs.foldl (fun a y => a + y) x) = some (x :: xs).sum
    rw [foldl_add_init, List.sum_cons]

theorem float_eq_self_of_nonneg (x : ℚ) (hx : 0 ≤ x) : float_eq x x := by
  unfold float_eq abs_tol rel_tol
  rw [sub_self, abs_zero]
  positivity

theorem float_eq_one_one : float_eq 1 1 :=
  float_eq_self_of_nonneg 1 (by norm_num)



/-! ## Claim C1 -/

/-- Claim C1, counterexample to the "zero or one asset" part: a one-asset
portfolio (price 1, quantity 1, volatility 1) has volatility `sqrt 1 = 1`,
not `0.0`: the early return only covers zero assets, and with one asset the
diagonal term `(volatility · fractional_value)² = 1` survives. -/
theorem claim_C1_counterexample :
    onePortfolio.num_assets = 1 ∧
      Real.sqrt (onePortfolio.get_volatility_sq : ℝ) ≠ 0 := by
  refine ⟨rfl, ?_⟩
  have h1 : onePortfolio.get_volatility_sq = 1 := by
    norm_num [onePortfolio, Portfolio.get_volatility_sq, Portfolio.num_assets,
      Portfolio.get_asset, Portfolio.get_asset_fractional_value,
      Portfolio.get_asset_value, Portfolio.get_asset_number, Portfolio.get_value,
      Portfolio.get_asset_correlation, Portfolio.lookupCorr, defaultAsset,
      List.range_succ]
  rw [h1]
  norm_num

/-- Claim C1, amended: for every portfolio whose correlation store contains no
self-pair, `get_volatility` is the square root of
`Σ_i (volatility_i · fractional_value_i)² + Σ_i Σ_{i ≤ j} 2 · coupling(asset_i,
asset_j) · fractional_value_i · fractional_value_j`, every `i = j` coupling
term being zero because no self-coupling is stored; for zero assets the result
is `0.0` (a one-asset portfolio instead yields its own volatility weight, see
the counterexample). -/
theorem claim_C1 (p : Portfolio) (hsf : p.SelfFree) :
    Real.sqrt (p.get_volatility_sq : ℝ) =
      Real.sqrt (((∑ i in Finset.range p.num_assets,
          ((p.get_asset i).volatility * p.get_asset_fractional_value i) ^ 2 +
        ∑ i in Finset.range p.num_assets, ∑ j in Finset.Ico i p.num_assets,
          2 * p.get_asset_correlation (p.get_asset i) (p.get_asset j) *
            p.get_asset_fractional_value i * p.get_asset_fractional_value j : ℚ) : ℝ)) ∧
    (∀ i, p.get_asset_correlation (p.get_asset i) (p.get_asset i) = 0) ∧
    (p.num_assets = 0 → Real.sqrt (p.get_volatility_sq : ℝ) = 0) := by
  refine ⟨?_, fun i => p.get_asset_correlation_self hsf (p.get_asset i), fun h0 => ?_⟩
  · by_cases hn : p.num_assets = 0
    · rw [show p.get_volatility_sq = 0 from by unfold Portfolio.get_volatility_sq; rw [if_pos hn]]
      rw [hn]
      simp
    · rw [p.get_volatility_sq_eq_sum hn]
  · rw [show p.get_volatility_sq = 0 from by unfold Portfolio.get_volatility_sq; rw [if_pos h0]]
    simp

/-- Witness for the amended claim C1 at a concrete self-free portfolio. -/
theorem claim_C1_witness :
    twoPortfolio.get_asset_correlation (twoPortfolio.get_asset 0)
      (twoPortfolio.get_asset 0) = 0 :=
  (claim_C1 twoPortfolio (fun e he => absurd he (List.not_mem_nil e))).2.1 0

/-! ## Claim C2 -/

/-- Claim C2, counterexample: on the empty portfolio with the empty target
vector the length check passes (`0 = 0`) and `vec_sum` of the empty vector
raises an uncaught `TypeError`, so the call neither reports an input error
nor returns with the state unchanged — it aborts. -/
theorem claim_C2_counterexample :
    (⟨[], []⟩ : Portfolio).set_asset_distribution [] = none ∧
      ¬ ∃ w, (⟨[], []⟩ : Portfolio).set_asset_distribution [] =
        some ((⟨[], []⟩ : Portfolio), w) := by
  constructor
  · rfl
  · rintro ⟨w, hw⟩
    exact Option.noConfusion hw

/-- Claim C2, amended: unless both the portfolio and the target are empty
(in which case the empty-sum reduction raises an uncaught `TypeError`),
`set_asset_distribution` behaves as claimed: a length mismatch or a sum
outside the `float_eq` tolerance reports an input error and changes nothing;
otherwise every quantity with a nonzero price becomes
`(value() · target_i) / price_i` (value taken before the call), a zero-price
holding reports a condition and keeps its quantity, and the assets and
correlations are otherwise untouched. -/
theorem claim_C2 (p : Portfolio) (nd : List ℚ) :
    (nd.length ≠ p.num_assets →
      p.set_asset_distribution nd = some (p, [Portfolio.Warn.numAssets])) ∧
    (nd = [] → p.num_assets = 0 → p.set_asset_distribution nd = none) ∧
    (nd ≠ [] → nd.length = p.num_assets → ¬ float_eq nd.sum 1 →
      p.set_asset_distribution nd = some (p, [Portfolio.Warn.normalization])) ∧
    (nd ≠ [] → nd.length = p.num_assets → float_eq nd.sum 1 →
      p.set_asset_distribution nd =
          some (p.distributed nd, p.priceWarns nd.length) ∧
        (∀ i, (p.distributed nd).get_asset i = p.get_asset i) ∧
        (p.distributed nd).correlations = p.correlations ∧
        (∀ i, i < p.num_assets → (p.get_asset i).price ≠ 0 →
          (p.distributed nd).get_asset_number i =
            p.get_value * nd.getD i 0 / (p.get_asset i).price) ∧
        (∀ i, (p.get_asset i).price = 0 →
          (p.distributed nd).get_asset_number i = p.get_asset_number i)) := by
  refine ⟨fun hne => ?_, fun hnil hnum => ?_, fun hnn hlen hfe => ?_, fun hnn hlen hfe => ?_⟩
  · unfold Portfolio.set_asset_distribution
    rw [if_pos hne]
  · subst hnil
    unfold Portfolio.set_asset_distribution
    rw [if_neg (by simpa using hnum.symm)]
    rfl
  · unfold Portfolio.set_asset_distribution
    rw [if_neg (not_ne_iff.mpr hlen), vec_sum_eq nd hnn]
    dsimp only
    rw [if_pos hfe]
  · refine ⟨p.set_asset_distribution_success nd nd.sum hlen (vec_sum_eq nd hnn) hfe,
      p.get_asset_distributed nd, rfl,
      fun i hi hp => p.get_asset_number_distributed nd i hi hp,
      fun i hp => p.get_asset_number_distributed_zero nd i hp⟩

/-- Witness for claim C2 on a concrete two-asset portfolio, exercising both
the error branch and the success branch. -/
theorem claim_C2_witness :
    twoPortfolio.set_asset_distribution [1] =
        some (twoPortfolio, [Portfolio.Warn.numAssets]) ∧
      twoPortfolio.set_asset_distribution [3/4, 1/4] =
        some (twoPortfolio.distributed [3/4, 1/4], twoPortfolio.priceWarns 2) :=
  ⟨(claim_C2 twoPortfolio [1]).1 (by norm_num [twoPortfolio, Portfolio.num_assets]),
    ((claim_C2 twoPortfolio [3/4, 1/4]).2.2.2 (List.cons_ne_nil _ _)
      (by norm_num [twoPortfolio, Portfolio.num_assets])
      (by norm_num [float_eq, abs_tol, rel_tol])).1⟩

/-! ## Claim C3 -/

/-- Claim C3: for a nonempty portfolio with nonzero value and all-nonzero
prices and a normalized nonnegative target of matching length,
`set_asset_distribution` succeeds, the distribution read back equals the
target exactly (hence within the stated tolerance), and `get_value` is
unchanged across the call. -/
theorem claim_C3 (p : Portfolio) (d : List ℚ)
    (hn : p.num_assets ≠ 0) (hV : p.get_value ≠ 0)
    (hall : ∀ i, i < p.num_assets → (p.get_asset i).price ≠ 0)
    (hlen : d.length = p.num_assets) (hsum : d.sum = 1)
    (hpos : ∀ x ∈ d, 0 ≤ x) :
    ∃ w, p.set_asset_distribution d = some (p.distributed d, w) ∧
      (p.distributed d).get_asset_distribution = d ∧
      (∀ i, i < p.num_assets →
        float_eq ((p.distributed d).get_asset_distribution.getD i 0) (d.getD i 0)) ∧
      (p.distributed d).get_value = p.get_value := by
  have hnn : d ≠ [] := by
    intro h
    rw [h] at hlen
    exact hn hlen.symm
  refine ⟨p.priceWarns d.length,
    p.set_asset_distribution_success d d.sum hlen (vec_sum_eq d hnn) (hsum ▸ float_eq_one_one),
    p.get_asset_distribution_distributed d hlen hall hV hsum, fun i hi => ?_, ?_⟩
  · rw [p.get_asset_distribution_distributed d hlen hall hV hsum]
    refine float_eq_self_of_nonneg _ ?_
    by_cases hid : i < d.length
    · have hmem : d[i]? = some (d.get ⟨i, hid⟩) :=
        List.getElem?_eq_getElem hid
      rw [List.getD_eq_getElem?_getD, hmem]
      exact hpos _ (List.get_mem d i hid)
    · rw [List.getD_eq_getElem?_getD, List.getElem?_eq_none_iff.mpr (by omega)]
      exact le_refl 0
  · rw [p.get_value_distributed d hlen hall, hsum, mul_one]

/-- Witness for claim C3 at a concrete two-asset portfolio and target. -/
theorem claim_C3_witness :
    ∃ w, twoPortfolio.set_asset_distribution [3/4, 1/4] =
        some (twoPortfolio.distributed [3/4, 1/4], w) ∧
      (twoPortfolio.distributed [3/4, 1/4]).get_asset_distribution = [3/4, 1/4] ∧
      (∀ i, i < twoPortfolio.num_assets →
        float_eq ((twoPortfolio.distributed [3/4, 1/4]).get_asset_distribution.getD i 0)
          (([3/4, 1/4] : List ℚ).getD i 0)) ∧
      (twoPortfolio.distributed [3/4, 1/4]).get_value = twoPortfolio.get_value := by
  refine claim_C3 twoPortfolio [3/4, 1/4] ?_ ?_ ?_ ?_ ?_ ?_
  · norm_num [twoPortfolio, Portfolio.num_assets]
  · norm_num [twoPortfolio, Portfolio.get_value, assetA, assetB]
  · intro i hi
    have h2 : i < 2 := hi
    interval_cases i <;>
      norm_num [twoPortfolio, Portfolio.get_asset, assetA, assetB, defaultAsset]
  · norm_num [twoPortfolio, Portfolio.num_assets]
  · norm_num
  · intro x hx
    rw [List.mem_cons, List.mem_singleton] at hx
    rcases hx with h | h <;> rw [h] <;> norm_num

/-! ## Claim C10 -/

/-- Claim C10: `scan_two_assets` with step `0.0` reports the step-size
configuration error inside `frange`, returns an empty sample list, and
returns the portfolio exactly as it was — no allocation is evaluated. -/
theorem claim_C10 (p : Portfolio) (i j : ℕ) :
    scan_two_assets p i j 0 = some ([], p) ∧ (frange 0 1 (0 : ℚ)).2 = true := by
  have hf : frange 0 1 (0 : ℚ) = ([], true) := by
    unfold frange
    rw [if_pos (by norm_num [float_eq, abs_tol, rel_tol])]
  constructor
  · unfold scan_two_assets
    rw [hf]
    rfl
  · rw [hf]

/-! ## Claim C8 -/

/-- Claim C8 fails on the code: constructing a `Portfolio` with no data
sources reaches `vec_sum` of the empty quantity list, whose `reduce` raises
an uncaught `TypeError`, so the empty construction aborts instead of
yielding an empty portfolio. -/
theorem claim_C8 (cov : ℕ → ℕ → ℚ) : portfolio_init none cov = none := rfl

/-! ## Evaluations of the binary64 conversion at the steps the program uses -/

theorem floorLog2Q_hundredth : floorLog2Q (1/100) = -7 := by
  unfold floorLog2Q
  rw [if_neg (by norm_num)]
  rw [log2down.eq_def]; norm_num [pow2Q]
  rw [log2down.eq_def]; norm_num [pow2Q]
  rw [log2down.eq_def]; norm_num [pow2Q]
  rw [log2down.eq_def]; norm_num [pow2Q]
  rw [log2down.eq_def]; norm_num [pow2Q]
  rw [log2down.eq_def]; norm_num [pow2Q]
  rw [log2down.eq_def]; norm_num [pow2Q]
  rw [log2down.eq_def]; norm_num [pow2Q]

/-- The Python float literal `0.01` is `5764607523034235 · 2⁻⁵⁹`. -/
theorem toScaled_hundredth : toScaled (1/100) = 5764607523034235 := by
  unfold toScaled roundDouble
  rw [if_neg (by norm_num), if_neg (by norm_num)]
  unfold roundDoublePos
  rw [floorLog2Q_hundredth]
  norm_num [pow2Q, roundHalfEvenQ]

theorem toScaled_zero : toScaled 0 = 0 := by
  unfold toScaled roundDouble
  rw [if_pos rfl]
  norm_num [roundHalfEvenQ]

theorem toScaled_one : toScaled 1 = 576460752303423488 := by
  unfold toScaled roundDouble
  rw [if_neg (by norm_num), if_neg (by norm_num)]
  unfold roundDoublePos
  have h : floorLog2Q 1 = 0 := by
    unfold floorLog2Q
    rw [if_pos (by norm_num)]
    rw [log2up.eq_def]; norm_num [pow2Q]
  rw [h]
  norm_num [pow2Q, roundHalfEvenQ]

theorem toScaled_half : toScaled (1/2) = 288230376151711744 := by
  unfold toScaled roundDouble
  rw [if_neg (by norm_num), if_neg (by norm_num)]
  unfold roundDoublePos
  have h : floorLog2Q (1/2) = -1 := by
    unfold floorLog2Q
    rw [if_neg (by norm_num)]
    rw [log2down.eq_def]; norm_num [pow2Q]
    rw [log2down.eq_def]; norm_num [pow2Q]
  rw [h]
  norm_num [pow2Q, roundHalfEvenQ]

/-- The grid of `frange(0.0, 1.0, 0.5)`: exactly `[0.0, 0.5, 1.0]`. -/
theorem frange_half : frange 0 1 (1/2) = ([0, 1/2, 1], false) := by
  unfold frange
  rw [if_neg (by norm_num [float_eq, abs_tol, rel_tol, abs_of_pos]), toScaled_zero,
    toScaled_one, toScaled_half]
  have hz : frangeZ 100000 0 576460752303423488 288230376151711744 =
      [0, 288230376151711744, 576460752303423488] := by decide
  rw [hz]
  norm_num

set_option maxRecDepth 100000 in
/-- The float-accumulating stepper over `[0.0, 1.0]` with the binary64 step
`0.01` emits exactly 100 values — not 101: the hundredth partial sum already
exceeds `1.0`. -/
theorem frange_hundredth_length : (frange 0 1 (1/100)).1.length = 100 := by
  unfold frange
  rw [if_neg (by norm_num [float_eq, abs_tol, rel_tol, abs_of_pos]), toScaled_zero,
    toScaled_one, toScaled_hundredth]
  rw [List.length_map]
  decide

/-! ## Claim C7 -/

/-- Claim C7 fails on the code for `scan_two_assets`: the loop appends the
one mutable `cdist` list into every tuple, so after the call every sample
carries the final distribution `[1.0, 0.0]` — including the first sample,
whose `(volatility², return) = (25, 2)` pair was evaluated at `[0.0, 1.0]`
(the volatility at `[1.0, 0.0]` is `9`, not `25`). -/
theorem claim_C7 :
    scan_two_assets twoPortfolio 0 1 (1/2) =
      some ([(25, 2, [1, 0]), (17/2, 3/2, [1, 0]), (9, 1, [1, 0])],
        ⟨[(assetA, 1), (assetB, 0)], []⟩) ∧
    ([1, 0] : List ℚ) ≠ ([0, 1] : List ℚ) := by
  constructor
  · unfold scan_two_assets
    rw [frange_half]
    norm_num [twoPortfolio, assetA, assetB, scanTwoAux, Portfolio.set_asset_distribution,
      Portfolio.num_assets, vec_sum, float_eq, abs_tol, rel_tol,
      Portfolio.set_asset_number_with_value, Portfolio.get_asset,
      Portfolio.set_asset_number, Portfolio.get_value, Portfolio.get_volatility_sq,
      Portfolio.get_expected_return, Portfolio.get_asset_fractional_value,
      Portfolio.get_asset_value, Portfolio.get_asset_number,
      Portfolio.get_asset_correlation, Portfolio.lookupCorr, defaultAsset,
      List.range_succ, List.range', List.replicate]
  · simp

/-! ## Loop invariants shared by the scan and Monte-Carlo claims -/

namespace Portfolio



theorem Inv_refl (p : Portfolio) : Inv p p := ⟨rfl, fun _ => rfl, rfl, rfl⟩

theorem Inv_distributed (p q : Portfolio) (d : List ℚ) (hq : Inv p q)
    (hall : ∀ i, i < p.num_assets → (p.get_asset i).price ≠ 0)
    (hlen : d.length = p.num_assets) (hsum : d.sum = 1) :
    Inv p (q.distributed d) := by
  obtain ⟨hn, ha, hc, hv⟩ := hq
  have hall' : ∀ i, i < q.num_assets → (q.get_asset i).price ≠ 0 := by
    intro i hi
    rw [ha]
    exact hall i (by omega)
  refine ⟨?_, ?_, ?_, ?_⟩
  · rw [num_assets_distributed, hn]
  · intro i
    rw [get_asset_distributed, ha]
  · rw [correlations_distributed, hc]
  · rw [get_value_distributed q d (by omega) hall', hsum, mul_one, hv]

theorem get_asset_correlation_nonneg (p : Portfolio)
    (hcorr : ∀ e ∈ p.correlations, 0 ≤ e.2) (a1 a2 : Asset) :
    0 ≤ p.get_asset_correlation a1 a2 := by
  unfold get_asset_correlation lookupCorr
  cases h1 : p.correlations.find? (fun e => e.1 == (a1, a2)) with
  | some e => exact hcorr e (List.mem_of_find?_eq_some h1)
  | none =>
    cases h2 : p.correlations.find? (fun e => e.1 == (a2, a1)) with
    | some e => exact hcorr e (List.mem_of_find?_eq_some h2)
    | none => exact le_refl 0

theorem get_volatility_sq_nonneg (p : Portfolio)
    (hcorr : ∀ e ∈ p.correlations, 0 ≤ e.2)
    (hfrac : ∀ i, i < p.num_assets → 0 ≤ p.get_asset_fractional_value i) :
    0 ≤ p.get_volatility_sq := by
  by_cases hn : p.num_assets = 0
  · unfold get_volatility_sq
    rw [if_pos hn]
  · rw [p.get_volatility_sq_eq_sum hn]
    have h1 : 0 ≤ ∑ i in Finset.range p.num_assets,
        ((p.get_asset i).volatility * p.get_asset_fractional_value i) ^ 2 :=
      Finset.sum_nonneg (fun i _ => sq_nonneg _)
    have h2 : 0 ≤ ∑ i in Finset.range p.num_assets, ∑ j in Finset.Ico i p.num_assets,
        2 * p.get_asset_correlation (p.get_asset i) (p.get_asset j) *
          p.get_asset_fractional_value i * p.get_asset_fractional_value j := by
      refine Finset.sum_nonneg (fun i hi => Finset.sum_nonneg (fun j hj => ?_))
      have hio := Finset.mem_range.mp hi
      have hjo := (Finset.mem_Ico.mp hj).2
      have hc := p.get_asset_correlation_nonneg hcorr (p.get_asset i) (p.get_asset j)
      have hfi := hfrac i hio
      have hfj := hfrac j hjo
      positivity
    linarith

/-- The fractional values of a freshly distributed portfolio are the target
entries, hence nonnegative for a nonnegative target. -/
theorem frac_distributed_nonneg (p q : Portfolio) (d : List ℚ) (hq : Inv p q)
    (hall : ∀ i, i < p.num_assets → (p.get_asset i).price ≠ 0)
    (hV : p.get_value ≠ 0) (hlen : d.length = p.num_assets) (hsum : d.sum = 1)
    (hpos : ∀ x ∈ d, 0 ≤ x) (i : ℕ) (hi : i < (q.distributed d).num_assets) :
    0 ≤ (q.distributed d).get_asset_fractional_value i := by
  obtain ⟨hn, ha, hc, hv⟩ := hq
  have hall' : ∀ i, i < q.num_assets → (q.get_asset i).price ≠ 0 := by
    intro i hi
    rw [ha]
    exact hall i (by omega)
  rw [num_assets_distributed] at hi
  rw [q.frac_distributed d (by omega) hall' (by rw [hv]; exact hV) hsum i hi]
  by_cases hid : i < d.length
  · have hmem : d[i]? = some (d.get ⟨i, hid⟩) := List.getElem?_eq_getElem hid
    rw [List.getD_eq_getElem?_getD, hmem]
    exact hpos _ (List.get_mem d i hid)
  · rw [List.getD_eq_getElem?_getD, List.getElem?_eq_none_iff.mpr (by omega)]
    exact le_refl 0

end Portfolio

/-- Every value emitted by the scaled stepper stays within `[0, b]` for an
ascending scan started inside the range. -/
theorem frangeZ_bounds (f : ℕ) (a b c : ℤ) (ha0 : 0 ≤ a) (hab : a ≤ b)
    (hc : 0 < c) : ∀ x ∈ frangeZ f a b c, 0 ≤ x ∧ x ≤ b := by
  induction f generalizing a with
  | zero =>
    intro x hx
    exact absurd hx (List.not_mem_nil x)
  | succ f ih =>
    intro x hx
    rw [frangeZ] at hx
    rcases List.mem_cons.mp hx with hx | hx
    · exact ⟨hx ▸ ha0, hx ▸ hab⟩
    · by_cases hbr : (0 < c ∧ b < faddZ a c) ∨ (c < 0 ∧ faddZ a c < b)
      · rw [if_pos hbr] at hx
        exact absurd hx (List.not_mem_nil x)
      · rw [if_neg hbr] at hx
        have h2 : 0 ≤ faddZ a c := by
          unfold faddZ roundZ
          rw [if_neg (by omega)]
          exact Int.natCast_nonneg _
        have h3 : faddZ a c ≤ b := by
          push_neg at hbr
          exact hbr.1 hc
        exact ih (faddZ a c) h2 h3 x hx

theorem frange_in_unit (c : ℚ) (hc : 0 < toScaled c) :
    ∀ x ∈ (frange 0 1 c).1, 0 ≤ x ∧ x ≤ 1 := by
  unfold frange
  by_cases hf : float_eq c 0
  · rw [if_pos hf]
    intro x hx
    exact absurd hx (List.not_mem_nil x)
  · rw [if_neg hf, toScaled_zero, toScaled_one]
    dsimp only
    intro x hx
    obtain ⟨z, hz, hzx⟩ := List.mem_map.mp hx
    obtain ⟨hz0, hz1⟩ := frangeZ_bounds 100000 0 576460752303423488 (toScaled c)
      (le_refl 0) (by norm_num) hc z hz
    rw [← hzx]
    constructor
    · exact div_nonneg (by exact_mod_cast hz0) (by norm_num)
    · rw [div_le_one (by norm_num)]
      exact_mod_cast hz1

theorem set_two (cdist : List ℚ) (h : cdist.length = 2) (x y : ℚ) :
    (cdist.set 0 x).set 1 y = [x, y] := by
  match cdist, h with
  | [a, b], _ => rfl

open Portfolio in
/-- Each grid point of a two-asset scan yields exactly one sample: the
distribution `[x, 1-x]` sums to one exactly, the set succeeds, the volatility
total stays nonnegative (so `math.sqrt` does not raise), and the scan
invariant carries to the next iteration. -/
theorem scanTwoAux_count (p : Portfolio) (h2 : p.num_assets = 2)
    (hall : ∀ i, i < p.num_assets → (p.get_asset i).price ≠ 0)
    (hV : p.get_value ≠ 0)
    (hcorr : ∀ e ∈ p.correlations, 0 ≤ e.2) :
    ∀ (xs : List ℚ) (q : Portfolio) (cdist : List ℚ), Inv p q →
      cdist.length = 2 → (∀ x ∈ xs, 0 ≤ x ∧ x ≤ 1) →
      ∃ prs cf pf, scanTwoAux 0 1 q xs cdist = some (prs, cf, pf) ∧
        prs.length = xs.length ∧ Inv p pf := by
  intro xs
  induction xs with
  | nil =>
    intro q cdist hq hcl hxs
    exact ⟨[], cdist, q, rfl, rfl, hq⟩
  | cons x rest ih =>
    intro q cdist hq hcl hxs
    have hx01 := hxs x (List.mem_cons_self x rest)
    have hc2 : (cdist.set 0 x).set 1 (1 - x) = [x, 1 - x] := set_two cdist hcl x (1 - x)
    have hlen2 : ([x, 1 - x] : List ℚ).length = q.num_assets := by
      rw [hq.1, h2]
      rfl
    have hsum2 : ([x, 1 - x] : List ℚ).sum = 1 := by
      simp
    have hfe : float_eq ([x, 1 - x] : List ℚ).sum 1 := by
      rw [hsum2]
      exact float_eq_one_one
    have hset := q.set_asset_distribution_success [x, 1 - x] _ hlen2
      (vec_sum_eq _ (by simp)) hfe
    have hlenp : ([x, 1 - x] : List ℚ).length = p.num_assets := by
      rw [h2]
      rfl
    have hq2 : Inv p (q.distributed [x, 1 - x]) :=
      Inv_distributed p q _ hq hall hlenp hsum2
    have hposd : ∀ y ∈ ([x, 1 - x] : List ℚ), 0 ≤ y := by
      intro y hy
      rw [List.mem_cons, List.mem_singleton] at hy
      rcases hy with h | h
      · rw [h]
        exact hx01.1
      · rw [h]
        linarith [hx01.2]
    have hfr := frac_distributed_nonneg p q [x, 1 - x] hq hall hV hlenp hsum2 hposd
    have hvol : 0 ≤ (q.distributed [x, 1 - x]).get_volatility_sq := by
      refine get_volatility_sq_nonneg _ ?_ hfr
      rw [correlations_distributed, hq.2.2.1]
      exact hcorr
    obtain ⟨prs, cf, pf, hrec, hlenr, hinv⟩ := ih (q.distributed [x, 1 - x]) [x, 1 - x]
      hq2 rfl (fun y hy => hxs y (List.mem_cons_of_mem x hy))
    refine ⟨((q.distributed [x, 1 - x]).get_volatility_sq,
      (q.distributed [x, 1 - x]).get_expected_return) :: prs, cf, pf, ?_, ?_, hinv⟩
    · show scanTwoAux 0 1 q (x :: rest) cdist = _
      rw [scanTwoAux, hc2, hset]
      dsimp only
      rw [if_neg (not_lt.mpr hvol), hrec]
    · rw [List.length_cons, List.length_cons, hlenr]

/-! ## Claim C9 -/

/-- Claim C9: for a two-asset portfolio (nonzero prices and value,
nonnegative stored couplings so that no square root raises),
`scan_asset_pairs` at the default step `0.01` returns exactly 100 sample
points — the float-accumulating stepper emits 100 grid values, not the
naively expected 101. -/
theorem claim_C9 (p : Portfolio) (h2 : p.num_assets = 2)
    (hall : ∀ i, i < p.num_assets → (p.get_asset i).price ≠ 0)
    (hV : p.get_value ≠ 0)
    (hcorr : ∀ e ∈ p.correlations, 0 ≤ e.2) :
    ∃ samples pf, scan_asset_pairs p (1/100) = some (samples, pf) ∧
      samples.length = 100 := by
  have hpair : pairIndices p.num_assets = [(0, 1)] := by
    rw [h2]
    rfl
  have hbounds := frange_in_unit (1/100) (by rw [toScaled_hundredth]; norm_num)
  obtain ⟨prs, cf, pf, haux, hlenr, hinv⟩ := scanTwoAux_count p h2 hall hV hcorr
    (frange 0 1 (1/100)).1 p (List.replicate p.num_assets 0) (Portfolio.Inv_refl p)
    (by rw [List.length_replicate, h2]) hbounds
  have hscan : scan_two_assets p 0 1 (1/100) =
      some (prs.map (fun pr => (pr.1, pr.2, cf)), pf) := by
    unfold scan_two_assets
    rw [haux]
  refine ⟨prs.map (fun pr => (pr.1, pr.2, cf)), pf, ?_, ?_⟩
  · have hstep : scanPairsAux (1/100) [(0, 1)] p =
        match scan_two_assets p 0 1 (1/100) with
        | none => none
        | some (samples, p2) =>
          match scanPairsAux (1/100) [] p2 with
          | none => none
          | some (samples2, pf2) => some (samples ++ samples2, pf2) := rfl
    have hnil : scanPairsAux (1/100) [] pf = some ([], pf) := rfl
    unfold scan_asset_pairs
    rw [hpair, hstep, hscan]
    dsimp only
    rw [hnil]
    dsimp only
    rw [List.append_nil]
  · rw [List.length_map, hlenr, frange_hundredth_length]

/-- Witness for claim C9 at the concrete two-asset portfolio. -/
theorem claim_C9_witness :
    ∃ samples pf, scan_asset_pairs twoPortfolio (1/100) = some (samples, pf) ∧
      samples.length = 100 := by
  refine claim_C9 twoPortfolio rfl ?_ ?_ ?_
  · intro i hi
    have hi2 : i < 2 := hi
    interval_cases i <;>
      norm_num [twoPortfolio, Portfolio.get_asset, assetA, assetB, defaultAsset]
  · norm_num [twoPortfolio, Portfolio.get_value, assetA, assetB]
  · intro e he
    exact absurd he (List.not_mem_nil e)

/-! ## Monte-Carlo machinery (claim C4) -/









theorem vec_norm_eq (v : List ℚ) (hv : v ≠ []) (hs : v.sum ≠ 0) :
    vec_norm v 1 = some (normDist v) := by
  unfold vec_norm normDist
  rw [vec_sum_eq v hv]
  dsimp only
  rw [if_neg hs]
  congr 1
  refine List.map_congr_left ?_
  intro x _
  rw [mul_one]

theorem normDist_length (v : List ℚ) : (normDist v).length = v.length :=
  List.length_map v (fun x => x / v.sum)

theorem normDist_sum (v : List ℚ) (hs : v.sum ≠ 0) : (normDist v).sum = 1 := by
  unfold normDist
  rw [show (fun x => x / v.sum) = (fun x => x * v.sum⁻¹) from by
    funext x
    rw [div_eq_mul_inv]]
  rw [List.sum_map_mul_right v (fun b => b) v.sum⁻¹, List.map_id', mul_inv_cancel₀ hs]

theorem normDist_nonneg (v : List ℚ) (hpos : ∀ x ∈ v, 0 ≤ x) (hs : v.sum ≠ 0) :
    ∀ y ∈ normDist v, 0 ≤ y := by
  have hsumpos : 0 < v.sum := by
    rcases lt_or_eq_of_le (List.sum_nonneg hpos) with h | h
    · exact h
    · exact absurd h.symm hs
  intro y hy
  obtain ⟨x, hx, hxy⟩ := List.mem_map.mp hy
  rw [← hxy]
  exact div_nonneg (hpos x hx) (le_of_lt hsumpos)

theorem getD_map_lt {α β : Type} (f : α → β) (l : List α) (k : ℕ)
    (hk : k < l.length) (d : α) (d2 : β) :
    (l.map f).getD k d2 = f (l.getD k d) := by
  rw [List.getD_eq_getElem?_getD, List.getD_eq_getElem?_getD, List.getElem?_map,
    List.getElem?_eq_getElem hk]
  rfl

namespace Portfolio

/-- Setting the same distribution on any portfolio that carries the start
portfolio's assets, couplings and value yields the same portfolio; this
collapses the scan's chain of mutations to a pure evaluation. -/
theorem distributed_eq_of_Inv (p q : Portfolio) (d : List ℚ) (hq : Inv p q)
    (hall : ∀ i, i < p.num_assets → (p.get_asset i).price ≠ 0) :
    q.distributed d = p.distributed d := by
  obtain ⟨hn, ha, hc, hv⟩ := hq
  have hlen2 : q.assets.length = p.assets.length := hn
  have hlp : p.num_assets = p.assets.length := rfl
  refine eq_of_fields ?_ hc
  refine List.ext_getElem? ?_
  intro i
  rw [assets_distributed_getElem?, assets_distributed_getElem?]
  by_cases hi : i < p.num_assets
  · obtain ⟨aq, haq⟩ : ∃ a, q.assets[i]? = some a :=
      ⟨q.assets.get ⟨i, by omega⟩, List.getElem?_eq_getElem (by omega)⟩
    obtain ⟨ap, hap⟩ : ∃ a, p.assets[i]? = some a :=
      ⟨p.assets.get ⟨i, hi⟩, List.getElem?_eq_getElem hi⟩
    have hfst : aq.1 = ap.1 := by
      have h1 := ha i
      unfold get_asset at h1
      rw [List.getD_eq_getElem?_getD, List.getD_eq_getElem?_getD, haq, hap] at h1
      exact h1
    have hpr : ap.1.price ≠ 0 := by
      have := hall i hi
      unfold get_asset at this
      rw [List.getD_eq_getElem?_getD, hap] at this
      exact this
    rw [haq, hap]
    show some (updEntry q.get_value d i aq) = some (updEntry p.get_value d i ap)
    unfold updEntry
    rw [hfst, if_neg hpr, if_neg hpr, hv]
  · have h1 : q.assets[i]? = none := by
      rw [List.getElem?_eq_none_iff]
      omega
    have h2 : p.assets[i]? = none := by
      rw [List.getElem?_eq_none_iff]
      omega
    rw [h1, h2]
    rfl

end Portfolio

/-- The running minimum returns the first entry of `acc :: pairs` attaining
the minimal volatility: it is an entry, it is minimal, and every earlier
entry is strictly worse. -/
theorem runBest_first_min (pairs : List (List ℚ × ℚ)) :
    ∀ acc : List ℚ × ℚ, ∃ k, k < (acc :: pairs).length ∧
      runBest pairs acc = (acc :: pairs).getD k ([], 0) ∧
      (∀ m, m < (acc :: pairs).length →
        (runBest pairs acc).2 ≤ ((acc :: pairs).getD m ([], 0)).2) ∧
      (∀ m, m < k → (runBest pairs acc).2 < ((acc :: pairs).getD m ([], 0)).2) := by
  induction pairs with
  | nil =>
    intro acc
    refine ⟨0, by simp, rfl, ?_, fun m hm => absurd hm (by omega)⟩
    intro m hm
    have hm0 : m = 0 := by
      rw [List.length_cons, List.length_nil] at hm
      omega
    subst hm0
    exact le_refl _
  | cons dv rest ih =>
    intro acc
    obtain ⟨d, v⟩ := dv
    by_cases hlt : v < acc.2
    · obtain ⟨k, hk, hrb, hmin, hstrict⟩ := ih (d, v)
      have hrb2 : runBest ((d, v) :: rest) acc = runBest rest (d, v) := by
        rw [runBest, if_pos hlt]
      refine ⟨k + 1, by simp only [List.length_cons] at hk ⊢; omega, ?_, ?_, ?_⟩
      · rw [hrb2, hrb]
        rfl
      · intro m hm
        match m with
        | 0 =>
          have h0 := hmin 0 (by simp)
          rw [hrb2]
          calc (runBest rest (d, v)).2 ≤ v := h0
          _ ≤ acc.2 := le_of_lt hlt
        | m + 1 =>
          have := hmin m (by simp only [List.length_cons] at hm ⊢; omega)
          rw [hrb2]
          exact this
      · intro m hm
        match m with
        | 0 =>
          have h0 := hmin 0 (by simp)
          rw [hrb2]
          calc (runBest rest (d, v)).2 ≤ v := h0
          _ < acc.2 := hlt
        | m + 1 =>
          have := hstrict m (by omega)
          rw [hrb2]
          exact this
    · obtain ⟨k, hk, hrb, hmin, hstrict⟩ := ih acc
      have hrb2 : runBest ((d, v) :: rest) acc = runBest rest acc := by
        rw [runBest, if_neg hlt]
      have hminacc : (runBest rest acc).2 ≤ acc.2 := hmin 0 (by simp)
      match k, hk, hrb, hstrict with
      | 0, hk, hrb, hstrict =>
        refine ⟨0, by simp, by rw [hrb2]; exact hrb, ?_,
          fun m hm => absurd hm (by omega)⟩
        intro m hm
        match m with
        | 0 => exact hrb2 ▸ hmin 0 (by simp)
        | 1 =>
          rw [hrb2]
          calc (runBest rest acc).2 ≤ acc.2 := hminacc
          _ ≤ v := not_lt.mp hlt
        | m + 2 =>
          rw [hrb2]
          exact hmin (m + 1) (by simp only [List.length_cons] at hm ⊢; omega)
      | j + 1, hk, hrb, hstrict =>
        refine ⟨j + 2, by simp only [List.length_cons] at hk ⊢; omega,
          by rw [hrb2]; exact hrb, ?_, ?_⟩
        · intro m hm
          match m with
          | 0 => exact hrb2 ▸ hmin 0 (by simp)
          | 1 =>
            rw [hrb2]
            calc (runBest rest acc).2 ≤ acc.2 := hminacc
            _ ≤ v := not_lt.mp hlt
          | m + 2 =>
            rw [hrb2]
            exact hmin (m + 1) (by simp only [List.length_cons] at hm ⊢; omega)
        · intro m hm
          match m with
          | 0 =>
            rw [hrb2]
            exact hstrict 0 (by omega)
          | 1 =>
            rw [hrb2]
            calc (runBest rest acc).2 < acc.2 := hstrict 0 (by omega)
            _ ≤ v := not_lt.mp hlt
          | m + 2 =>
            rw [hrb2]
            exact hstrict (m + 1) (by omega)

open Portfolio in
/-- Trial loop of `minimum_variance_montecarlo`, collapsed to the pure
running minimum: each trial normalizes its draw, evaluates the volatility of
the start portfolio at that distribution (the chain of mutations collapses
by `distributed_eq_of_Inv`), and keeps the strictly smaller volatility. -/
theorem mvmcAux_char (p : Portfolio)
    (hall : ∀ i, i < p.num_assets → (p.get_asset i).price ≠ 0)
    (hn : p.num_assets ≠ 0) :
    ∀ (trials : List (List ℚ)) (q : Portfolio) (bd : List ℚ) (bv : ℚ),
      Inv p q →
      (∀ t ∈ trials, t.length = p.num_assets ∧ t.sum ≠ 0 ∧
        0 ≤ volAt p (normDist t)) →
      ∃ qf, mvmcAux trials q bd bv =
          some (qf,
            runBest (trials.map (fun t => (normDist t, volAt p (normDist t)))) (bd, bv)) ∧
        Inv p qf := by
  intro trials
  induction trials with
  | nil =>
    intro q bd bv hq _
    exact ⟨q, rfl, hq⟩
  | cons t rest ih =>
    intro q bd bv hq hts
    obtain ⟨hlen, hsum, hvol⟩ := hts t (List.mem_cons_self t rest)
    have htne : t ≠ [] := by
      intro h
      subst h
      exact hn hlen.symm
    have hnd_len : (normDist t).length = p.num_assets := by
      rw [normDist_length]
      exact hlen
    have hnd_sum : (normDist t).sum = 1 := normDist_sum t hsum
    have hset := q.set_asset_distribution_success (normDist t) (normDist t).sum
      (by rw [hnd_len, hq.1]) (vec_sum_eq _ (by
        intro h
        have := normDist_length t
        rw [h] at this
        exact htne (List.eq_nil_of_length_eq_zero (by rw [← this]; rfl))))
      (by rw [hnd_sum]; exact float_eq_one_one)
    have hdq : q.distributed (normDist t) = p.distributed (normDist t) :=
      distributed_eq_of_Inv p q (normDist t) hq hall
    have hinv2 : Inv p (p.distributed (normDist t)) :=
      Inv_distributed p p (normDist t) (Inv_refl p) hall hnd_len hnd_sum
    obtain ⟨qf, hrec, hqf⟩ := ih (p.distributed (normDist t)) (normDist t)
      (volAt p (normDist t)) hinv2 (fun u hu => hts u (List.mem_cons_of_mem t hu))
    obtain ⟨qf2, hrec2, hqf2⟩ := ih (p.distributed (normDist t)) bd bv hinv2
      (fun u hu => hts u (List.mem_cons_of_mem t hu))
    by_cases hc : volAt p (normDist t) < bv
    · refine ⟨qf, ?_, hqf⟩
      rw [mvmcAux, vec_norm_eq t htne hsum]
      dsimp only
      rw [hset]
      dsimp only
      rw [hdq, show (p.distributed (normDist t)).get_volatility_sq =
        volAt p (normDist t) from rfl]
      rw [if_neg (not_lt.mpr hvol), if_pos (by exact hc), hrec]
      rw [List.map_cons, runBest, if_pos (by exact hc)]
    · refine ⟨qf2, ?_, hqf2⟩
      rw [mvmcAux, vec_norm_eq t htne hsum]
      dsimp only
      rw [hset]
      dsimp only
      rw [hdq, show (p.distributed (normDist t)).get_volatility_sq =
        volAt p (normDist t) from rfl]
      rw [if_neg (not_lt.mpr hvol), if_neg (by exact hc), hrec2]
      rw [List.map_cons, runBest, if_neg (by exact hc)]

/-- Claim C4, counterexample: the claim quantifies over every portfolio, but
on the empty portfolio `minimum_variance_montecarlo` aborts at its very first
step for every trial count — the seed draw has `num_assets() = 0` entries, so
`vec_norm([])` reaches `vec_sum([])`, whose `reduce` with no initial value
raises an uncaught `TypeError`.  No pair is returned and no distribution is
set. -/
theorem claim_C4_counterexample :
    minimum_variance_montecarlo (⟨[], []⟩ : Portfolio) [] [] = none ∧
      vec_norm [] 1 = none :=
  ⟨rfl, rfl⟩

open Portfolio in
/-- Claim C4, amended: for a nonempty portfolio with nonzero prices and
nonzero value, and draws of matching length with nonzero sum whose normalized
allocations all have a nonnegative volatility total (a negative total would
make the source's `math.sqrt` raise — negative stored couplings are fine as
long as the quadratic form stays nonnegative, and an all-zero draw or an
empty portfolio aborts inside `vec_norm`, see the counterexample):
`minimum_variance_montecarlo` evaluates `num+1` random allocations (the seed
plus one per trial), returns the `(volatility, expected_return)` pair of the
allocation whose volatility is minimal over all `num+1` trials with
first-seen-wins tie-break, and leaves the portfolio set to that best
distribution.  The volatility comparison is stated both on the totals and
through `Real.sqrt` (the source's float value). -/
theorem claim_C4 (p : Portfolio) (seed : List ℚ) (trials : List (List ℚ))
    (hn : p.num_assets ≠ 0)
    (hall : ∀ i, i < p.num_assets → (p.get_asset i).price ≠ 0)
    (hV : p.get_value ≠ 0)
    (hdraws : ∀ t ∈ seed :: trials, t.length = p.num_assets ∧ t.sum ≠ 0)
    (hvols : ∀ t ∈ seed :: trials, 0 ≤ volAt p (normDist t)) :
    ∃ k pf, (seed :: trials).length = trials.length + 1 ∧
      k < (seed :: trials).length ∧
      minimum_variance_montecarlo p seed trials =
        some ((volAt p (normDist ((seed :: trials).getD k [])),
               retAt p (normDist ((seed :: trials).getD k []))), pf) ∧
      pf = p.distributed (normDist ((seed :: trials).getD k [])) ∧
      pf.get_asset_distribution = normDist ((seed :: trials).getD k []) ∧
      (∀ m, m < (seed :: trials).length →
        volAt p (normDist ((seed :: trials).getD k [])) ≤
          volAt p (normDist ((seed :: trials).getD m []))) ∧
      (∀ m, m < k →
        volAt p (normDist ((seed :: trials).getD k [])) <
          volAt p (normDist ((seed :: trials).getD m []))) ∧
      (∀ m, m < (seed :: trials).length →
        Real.sqrt ((volAt p (normDist ((seed :: trials).getD k []))) : ℝ) ≤
          Real.sqrt ((volAt p (normDist ((seed :: trials).getD m []))) : ℝ)) := by
  obtain ⟨hslen, hssum⟩ := hdraws seed (List.mem_cons_self seed trials)
  have hsne : seed ≠ [] := by
    intro h
    subst h
    exact hn hslen.symm
  have hd0_len : (normDist seed).length = p.num_assets := by
    rw [normDist_length]
    exact hslen
  have hd0_sum : (normDist seed).sum = 1 := normDist_sum seed hssum
  have hd0_ne : normDist seed ≠ [] := by
    intro h
    have := normDist_length seed
    rw [h] at this
    exact hsne (List.eq_nil_of_length_eq_zero (by rw [← this]; rfl))
  have hset0 := p.set_asset_distribution_success (normDist seed) (normDist seed).sum
    hd0_len (vec_sum_eq _ hd0_ne) (by rw [hd0_sum]; exact float_eq_one_one)
  have hinv0 : Inv p (p.distributed (normDist seed)) :=
    Inv_distributed p p (normDist seed) (Inv_refl p) hall hd0_len hd0_sum
  have hvol0 : 0 ≤ volAt p (normDist seed) :=
    hvols seed (List.mem_cons_self seed trials)
  obtain ⟨qf, hrec, hqf⟩ := mvmcAux_char p hall hn trials
    (p.distributed (normDist seed)) (normDist seed) (volAt p (normDist seed))
    hinv0 (fun u hu =>
      ⟨(hdraws u (List.mem_cons_of_mem seed hu)).1,
       (hdraws u (List.mem_cons_of_mem seed hu)).2,
       hvols u (List.mem_cons_of_mem seed hu)⟩)
  obtain ⟨bd, bv, hBdef⟩ : ∃ bd bv,
      runBest (trials.map (fun t => (normDist t, volAt p (normDist t))))
        (normDist seed, volAt p (normDist seed)) = (bd, bv) := ⟨_, _, rfl⟩
  rw [hBdef] at hrec
  obtain ⟨k, hk, hrb, hmin, hstrict⟩ := runBest_first_min
    (trials.map (fun t => (normDist t, volAt p (normDist t))))
    (normDist seed, volAt p (normDist seed))
  rw [hBdef] at hrb hmin hstrict
  have hlm : ((normDist seed, volAt p (normDist seed)) ::
      trials.map (fun t => (normDist t, volAt p (normDist t)))) =
      (seed :: trials).map (fun t => (normDist t, volAt p (normDist t))) := by
    rw [List.map_cons]
  rw [hlm] at hk hrb hmin hstrict
  rw [List.length_map] at hk
  have hgetk : ((seed :: trials).map
      (fun t => (normDist t, volAt p (normDist t)))).getD k ([], 0) =
      (normDist ((seed :: trials).getD k []),
        volAt p (normDist ((seed :: trials).getD k []))) :=
    getD_map_lt _ (seed :: trials) k hk [] ([], 0)
  rw [hgetk] at hrb
  have hbd : bd = normDist ((seed :: trials).getD k []) := congrArg Prod.fst hrb
  have hbv : bv = volAt p (normDist ((seed :: trials).getD k [])) :=
    congrArg Prod.snd hrb
  -- properties of the best draw
  have hdkmem : (seed :: trials).getD k [] ∈ seed :: trials := by
    have h1 : (seed :: trials)[k]? = some ((seed :: trials).get ⟨k, hk⟩) :=
      List.getElem?_eq_getElem hk
    rw [List.getD_eq_getElem?_getD, h1]
    exact List.get_mem _ k hk
  obtain ⟨hklen, hksum⟩ := hdraws _ hdkmem
  have hkne : (seed :: trials).getD k [] ≠ [] := by
    intro h
    rw [h] at hklen
    exact hn hklen.symm
  have hbd_len : bd.length = p.num_assets := by
    rw [hbd, normDist_length]
    exact hklen
  have hbd_sum : bd.sum = 1 := by
    rw [hbd]
    exact normDist_sum _ hksum
  have hbd_ne : bd ≠ [] := by
    intro h
    rw [h] at hbd_len
    exact hn hbd_len.symm
  have hsetf := qf.set_asset_distribution_success bd bd.sum
    (by rw [hbd_len, hqf.1]) (vec_sum_eq _ hbd_ne)
    (by rw [hbd_sum]; exact float_eq_one_one)
  have hdqf : qf.distributed bd = p.distributed bd :=
    distributed_eq_of_Inv p qf bd hqf hall
  have hvolf : 0 ≤ volAt p bd := by
    rw [hbd]
    exact hvols _ hdkmem
  have hminvol : ∀ m, m < (seed :: trials).length →
      volAt p (normDist ((seed :: trials).getD k [])) ≤
        volAt p (normDist ((seed :: trials).getD m [])) := by
    intro m hm
    have h1 := hmin m (by rw [List.length_map]; exact hm)
    rw [getD_map_lt _ (seed :: trials) m hm [] ([], 0)] at h1
    dsimp only at h1
    rw [hbv] at h1
    exact h1
  refine ⟨k, p.distributed bd, rfl, hk, ?_, by rw [hbd], ?_, ?_, ?_, ?_⟩
  · unfold minimum_variance_montecarlo
    rw [vec_norm_eq seed hsne hssum]
    dsimp only
    rw [hset0]
    dsimp only
    rw [show (p.distributed (normDist seed)).get_volatility_sq =
      volAt p (normDist seed) from rfl]
    rw [if_neg (not_lt.mpr hvol0), hrec]
    dsimp only
    rw [hsetf, hdqf]
    dsimp only
    rw [show (p.distributed bd).get_volatility_sq = volAt p bd from rfl,
      if_neg (not_lt.mpr hvolf),
      show (p.distributed bd).get_expected_return = retAt p bd from rfl]
    rw [hbd]
  · rw [← hbd]
    exact p.get_asset_distribution_distributed bd hbd_len hall hV hbd_sum
  · exact hminvol
  · intro m hm
    have h1 := hstrict m hm
    rw [getD_map_lt _ (seed :: trials) m (by omega) [] ([], 0)] at h1
    dsimp only at h1
    rw [hbv] at h1
    exact h1
  · intro m hm
    have h1 := hminvol m hm
    exact Real.sqrt_le_sqrt (by exact_mod_cast h1)

/-- Witness for the amended claim C4 at a concrete two-asset portfolio with
explicit draws; the stored coupling is negative (anti-correlated assets), the
case the nonnegative-total hypothesis is designed to admit. -/
theorem claim_C4_witness :
    ∃ k pf, k < (([1, 1] : List ℚ) :: [[3, 1], [1, 3]]).length ∧
      minimum_variance_montecarlo antiPortfolio [1, 1] [[3, 1], [1, 3]] =
        some ((volAt antiPortfolio
                (normDist ((([1, 1] : List ℚ) :: [[3, 1], [1, 3]]).getD k [])),
               retAt antiPortfolio
                (normDist ((([1, 1] : List ℚ) :: [[3, 1], [1, 3]]).getD k []))), pf) := by
  obtain ⟨k, pf, _, hk, hmv, _⟩ := claim_C4 antiPortfolio [1, 1] [[3, 1], [1, 3]]
    (by norm_num [antiPortfolio, Portfolio.num_assets])
    (by
      intro i hi
      have h2 : i < 2 := hi
      interval_cases i <;>
        norm_num [antiPortfolio, Portfolio.get_asset, assetA, assetB, defaultAsset])
    (by norm_num [antiPortfolio, Portfolio.get_value, assetA, assetB])
    (by
      intro t ht
      rw [List.mem_cons, List.mem_cons, List.mem_singleton] at ht
      rcases ht with h | h | h <;> subst h <;>
        exact ⟨by norm_num [antiPortfolio, Portfolio.num_assets], by norm_num⟩)
    (by
      intro t ht
      rw [List.mem_cons, List.mem_cons, List.mem_singleton] at ht
      rcases ht with h | h | h <;> subst h <;>
        norm_num [volAt, normDist, antiPortfolio, Portfolio.distributed,
          Portfolio.updEntry, Portfolio.get_value, Portfolio.get_volatility_sq,
          Portfolio.num_assets, Portfolio.get_asset,
          Portfolio.get_asset_fractional_value, Portfolio.get_asset_value,
          Portfolio.get_asset_number, Portfolio.get_asset_correlation,
          Portfolio.lookupCorr, defaultAsset, assetA, assetB,
          List.range_succ, List.mapIdx_cons, List.mapIdx_nil, List.range'])
  exact ⟨k, pf, hk, hmv⟩

/-! ## Hull lemmas (claims C5 and C6) -/

theorem popChain_length_le : ∀ (ch : List Sample) (pt : Sample),
    (popChain ch pt).length ≤ ch.length := by
  intro ch
  induction ch with
  | nil => intro pt; exact le_refl _
  | cons b rest ih =>
    intro pt
    match rest with
    | [] => exact le_refl _
    | a :: rest2 =>
      rw [popChain]
      by_cases hc : 2 ≤ rest2.length ∧ cross_z a b pt < 0
      · rw [if_pos hc]
        calc (popChain (a :: rest2) pt).length ≤ (a :: rest2).length := ih pt
        _ ≤ (b :: a :: rest2).length := by simp
      · rw [if_neg hc]

theorem popChain_subset : ∀ (ch : List Sample) (pt : Sample) (y : Sample),
    y ∈ popChain ch pt → y ∈ ch := by
  intro ch
  induction ch with
  | nil => intro pt y hy; exact hy
  | cons b rest ih =>
    intro pt y hy
    match rest with
    | [] => exact hy
    | a :: rest2 =>
      rw [popChain] at hy
      by_cases hc : 2 ≤ rest2.length ∧ cross_z a b pt < 0
      · rw [if_pos hc] at hy
        exact List.mem_cons_of_mem b (ih pt y hy)
      · rw [if_neg hc] at hy
        exact hy

theorem popChain_ne_nil : ∀ (ch : List Sample) (pt : Sample), ch ≠ [] →
    popChain ch pt ≠ [] := by
  intro ch
  induction ch with
  | nil => intro pt h; exact absurd rfl h
  | cons b rest ih =>
    intro pt _
    match rest with
    | [] => exact List.cons_ne_nil b []
    | a :: rest2 =>
      rw [popChain]
      by_cases hc : 2 ≤ rest2.length ∧ cross_z a b pt < 0
      · rw [if_pos hc]
        exact ih pt (List.cons_ne_nil a rest2)
      · rw [if_neg hc]
        exact List.cons_ne_nil b (a :: rest2)

theorem popChain_getLast? : ∀ (ch : List Sample) (pt : Sample), ch ≠ [] →
    (popChain ch pt).getLast? = ch.getLast? := by
  intro ch
  induction ch with
  | nil => intro pt h; exact absurd rfl h
  | cons b rest ih =>
    intro pt _
    match rest with
    | [] => rfl
    | a :: rest2 =>
      rw [popChain]
      by_cases hc : 2 ≤ rest2.length ∧ cross_z a b pt < 0
      · rw [if_pos hc, ih pt (List.cons_ne_nil a rest2)]
        rw [List.getLast?_cons_cons]
      · rw [if_neg hc]

theorem chainFold_getLast? : ∀ (l acc : List Sample), acc ≠ [] →
    (l.foldl (fun ch pt => pt :: popChain ch pt) acc).getLast? = acc.getLast? := by
  intro l
  induction l with
  | nil => intro acc h; rfl
  | cons x rest ih =>
    intro acc hacc
    rw [List.foldl_cons]
    have h1 : x :: popChain acc x ≠ [] := List.cons_ne_nil _ _
    rw [ih _ h1]
    have h2 : popChain acc x ≠ [] := popChain_ne_nil acc x hacc
    match hpc : popChain acc x with
    | [] => exact absurd hpc h2
    | c :: cs =>
      rw [List.getLast?_cons_cons, ← hpc, popChain_getLast? acc x hacc]

theorem chainFold_length2 : ∀ (l acc : List Sample), acc ≠ [] → l ≠ [] →
    2 ≤ (l.foldl (fun ch pt => pt :: popChain ch pt) acc).length := by
  intro l
  induction l with
  | nil => intro acc _ h; exact absurd rfl h
  | cons x rest ih =>
    intro acc hacc _
    rw [List.foldl_cons]
    match rest with
    | [] =>
      rw [List.foldl_nil, List.length_cons]
      have h2 : popChain acc x ≠ [] := popChain_ne_nil acc x hacc
      have : 1 ≤ (popChain acc x).length := List.length_pos.mpr h2
      omega
    | y :: rest2 =>
      exact ih (x :: popChain acc x) (List.cons_ne_nil _ _) (List.cons_ne_nil _ _)

theorem chainFold_subset (S : List Sample) : ∀ (l acc : List Sample),
    (∀ y ∈ acc, y ∈ S) → (∀ y ∈ l, y ∈ S) →
    ∀ y ∈ l.foldl (fun ch pt => pt :: popChain ch pt) acc, y ∈ S := by
  intro l
  induction l with
  | nil => intro acc hacc _ y hy; exact hacc y hy
  | cons x rest ih =>
    intro acc hacc hl y hy
    rw [List.foldl_cons] at hy
    refine ih (x :: popChain acc x) ?_ (fun z hz => hl z (List.mem_cons_of_mem x hz)) y hy
    intro z hz
    rw [List.mem_cons] at hz
    rcases hz with h | h
    · exact h ▸ hl x (List.mem_cons_self x rest)
    · exact hacc z (popChain_subset acc x z h)

theorem buildChain_subset (S : List Sample) (l : List Sample)
    (hl : ∀ y ∈ l, y ∈ S) : ∀ y ∈ buildChain l, y ∈ S := by
  intro y hy
  unfold buildChain at hy
  rw [List.mem_reverse] at hy
  exact chainFold_subset S l [] (fun z hz => absurd hz (List.not_mem_nil z)) hl y hy

theorem insortBy_perm (key : Sample → ℚ) (x : Sample) : ∀ (l : List Sample),
    (insortBy key x l).Perm (x :: l) := by
  intro l
  induction l with
  | nil => exact List.Perm.refl _
  | cons y ys ih =>
    rw [insortBy]
    by_cases hc : key y < key x
    · rw [if_pos hc]
      exact (List.Perm.cons y ih).trans (List.Perm.swap x y ys)
    · rw [if_neg hc]

theorem sortByKey_perm (key : Sample → ℚ) : ∀ (l : List Sample),
    (sortByKey key l).Perm l := by
  intro l
  induction l with
  | nil => exact List.Perm.refl _
  | cons x xs ih =>
    show (insortBy key x (sortByKey key xs)).Perm (x :: xs)
    exact (insortBy_perm key x _).trans (List.Perm.cons x ih)

theorem sortPoints_perm (l : List Sample) : (sortPoints l).Perm l :=
  (sortByKey_perm _ _).trans (sortByKey_perm _ _)

theorem insortBy_sorted (key : Sample → ℚ) (x : Sample) : ∀ (l : List Sample),
    List.Sorted (fun a b => key a ≤ key b) l →
    List.Sorted (fun a b => key a ≤ key b) (insortBy key x l) := by
  intro l
  induction l with
  | nil =>
    intro _
    exact List.sorted_singleton x
  | cons y ys ih =>
    intro hs
    rw [List.sorted_cons] at hs
    obtain ⟨hy, hys⟩ := hs
    rw [insortBy]
    by_cases hc : key y < key x
    · rw [if_pos hc]
      rw [List.sorted_cons]
      refine ⟨?_, ih hys⟩
      intro b hb
      have hb2 := (insortBy_perm key x ys).mem_iff.mp hb
      rw [List.mem_cons] at hb2
      rcases hb2 with h | h
      · exact h ▸ le_of_lt hc
      · exact hy b h
    · rw [if_neg hc]
      rw [List.sorted_cons]
      refine ⟨?_, by rw [List.sorted_cons]; exact ⟨hy, hys⟩⟩
      intro b hb
      rw [List.mem_cons] at hb
      rcases hb with h | h
      · exact h ▸ not_lt.mp hc
      · exact le_trans (not_lt.mp hc) (hy b h)

theorem sortByKey_sorted (key : Sample → ℚ) : ∀ (l : List Sample),
    List.Sorted (fun a b => key a ≤ key b) (sortByKey key l) := by
  intro l
  induction l with
  | nil => exact List.sorted_nil
  | cons x xs ih => exact insortBy_sorted key x _ ih

theorem dedupAux_subset : ∀ (prev : Sample) (l : List Sample) (y : Sample),
    y ∈ dedupAux prev l → y ∈ l := by
  intro prev l
  induction l generalizing prev with
  | nil => intro y hy; exact hy
  | cons z zs ih =>
    intro y hy
    rw [dedupAux] at hy
    by_cases hc : float_eq prev.1 z.1 ∧ float_eq prev.2.1 z.2.1
    · rw [if_pos hc] at hy
      exact List.mem_cons_of_mem z (ih prev y hy)
    · rw [if_neg hc] at hy
      rw [List.mem_cons] at hy ⊢
      rcases hy with h | h
      · exact Or.inl h
      · exact Or.inr (ih z y h)

theorem dedupPoints_subset (l : List Sample) (y : Sample) :
    y ∈ dedupPoints l → y ∈ l := by
  match l with
  | [] => intro hy; exact hy
  | x :: xs =>
    intro hy
    rw [dedupPoints] at hy
    rw [List.mem_cons] at hy ⊢
    rcases hy with h | h
    · exact Or.inl h
    · exact Or.inr (dedupAux_subset x xs y h)

theorem head_mem_dropLast (L : List Sample) (h : Sample) (hlen : 2 ≤ L.length)
    (hh : L.head? = some h) : h ∈ L.dropLast := by
  match L, hlen with
  | a :: b :: t, _ =>
    have ha : a = h := by
      rw [List.head?_cons] at hh
      exact Option.some.inj hh
    subst ha
    rw [List.dropLast_cons₂]
    exact List.mem_cons_self a _

/-- Claim C6, amended: the hull output is always a subset of its input by
value, and for a nonempty input it contains a point of minimal volatility.
(The counterexample shows that the remaining guarantees of the original
claim — containment of the exact extreme points by volatility and by return,
and convexity of the centroid-resorted polygon — fail in general: the
dedup tolerance can delete an extreme point, and the relaxed pop rule can
retain an interior point.) -/
theorem claim_C6 (l : List Sample) :
    (∀ q ∈ asset_dist_hull l, q ∈ l) ∧
    (l ≠ [] → ∃ q ∈ asset_dist_hull l, ∀ r ∈ l, q.1 ≤ r.1) := by
  have hspsub : ∀ y ∈ dedupPoints (sortPoints l), y ∈ l := by
    intro y hy
    exact (sortPoints_perm l).mem_iff.mp (dedupPoints_subset _ y hy)
  constructor
  · intro q hq
    unfold asset_dist_hull at hq
    by_cases h1 : l.length < 2
    · rw [if_pos h1] at hq
      exact hq
    · rw [if_neg h1] at hq
      by_cases h2 : (dedupPoints (sortPoints l)).length < 2
      · rw [if_pos h2] at hq
        exact hspsub q hq
      · rw [if_neg h2] at hq
        rw [List.mem_append] at hq
        rcases hq with h | h
        · exact buildChain_subset l _ hspsub q (List.mem_of_mem_dropLast h)
        · refine buildChain_subset l _ ?_ q (List.mem_of_mem_dropLast h)
          intro y hy
          rw [List.mem_reverse] at hy
          exact hspsub y hy
  · intro hne
    have hsne : sortPoints l ≠ [] := by
      intro h0
      have hp := sortPoints_perm l
      rw [h0] at hp
      exact hne hp.symm.eq_nil
    obtain ⟨h, t, hht⟩ : ∃ h t, sortPoints l = h :: t := by
      match hsp : sortPoints l, hsne with
      | x :: xs, _ => exact ⟨x, xs, rfl⟩
    have hsorted : List.Sorted (fun a b : Sample => a.1 ≤ b.1) (sortPoints l) :=
      sortByKey_sorted (fun s => s.1) (sortByKey (fun s => s.2.1) l)
    have hmin : ∀ r ∈ l, h.1 ≤ r.1 := by
      intro r hr
      have hr2 : r ∈ sortPoints l := (sortPoints_perm l).mem_iff.mpr hr
      rw [hht] at hr2 hsorted
      rw [List.sorted_cons] at hsorted
      rw [List.mem_cons] at hr2
      rcases hr2 with hrh | hrt
      · rw [hrh]
      · exact hsorted.1 r hrt
    have hsp : dedupPoints (sortPoints l) = h :: dedupAux h t := by
      rw [hht]
      rfl
    have hhl : h ∈ l := hspsub h (by rw [hsp]; exact List.mem_cons_self h _)
    unfold asset_dist_hull
    by_cases h1 : l.length < 2
    · rw [if_pos h1]
      exact ⟨h, hhl, hmin⟩
    · rw [if_neg h1]
      by_cases h2 : (dedupPoints (sortPoints l)).length < 2
      · rw [if_pos h2]
        exact ⟨h, by rw [hsp]; exact List.mem_cons_self h _, hmin⟩
      · rw [if_neg h2]
        refine ⟨h, ?_, hmin⟩
        refine List.mem_append_left _ ?_
        have htne : dedupAux h t ≠ [] := by
          intro hnil
          rw [hsp, hnil] at h2
          exact h2 (by simp)
        have hfold1 : buildChain (dedupPoints (sortPoints l)) =
            ((dedupAux h t).foldl (fun ch pt => pt :: popChain ch pt) [h]).reverse := by
          rw [hsp]
          rfl
        have hlast := chainFold_getLast? (dedupAux h t) [h] (List.cons_ne_nil h [])
        have hlen2 := chainFold_length2 (dedupAux h t) [h] (List.cons_ne_nil h []) htne
        refine head_mem_dropLast _ h ?_ ?_
        · rw [hfold1, List.length_reverse]
          exact hlen2
        · rw [hfold1, List.head?_reverse, hlast]
          rfl

/-- Claim C5, amended: a point is popped from a chain exactly when more than
3 points (at least 4, not the claimed 3) have already been accepted into the
chain and the cross product of the last two accepted points with the
candidate is strictly negative; the returned hull is the lower chain
concatenated with the upper chain, each with its final point dropped.
(Chains are stored most-recent-first, so `b` is `chain[-1]` and `a` is
`chain[-2]`.) -/
theorem claim_C5 :
    (∀ pt : Sample, popChain [] pt = []) ∧
    (∀ x pt : Sample, popChain [x] pt = [x]) ∧
    (∀ (b a : Sample) (rest : List Sample) (pt : Sample),
      popChain (b :: a :: rest) pt ≠ b :: a :: rest ↔
        2 ≤ rest.length ∧ cross_z a b pt < 0) ∧
    (∀ l : List Sample, ¬ l.length < 2 →
      ¬ (dedupPoints (sortPoints l)).length < 2 →
      asset_dist_hull l =
        (buildChain (dedupPoints (sortPoints l))).dropLast ++
          (buildChain ((dedupPoints (sortPoints l)).reverse)).dropLast) := by
  refine ⟨fun pt => rfl, fun x pt => rfl, ?_, ?_⟩
  · intro b a rest pt
    constructor
    · intro hne
      by_contra hc
      refine hne ?_
      rw [popChain, if_neg hc]
    · intro hc
      rw [popChain, if_pos hc]
      intro heq
      have h1 : (popChain (a :: rest) pt).length ≤ (a :: rest).length :=
        popChain_length_le _ pt
      have h2 := congrArg List.length heq
      rw [List.length_cons, List.length_cons] at h2
      rw [List.length_cons] at h1
      omega
  · intro l h1 h2
    unfold asset_dist_hull
    rw [if_neg h1, if_neg h2]

/-- Claim C5, counterexample to the "at least 3" reading: on the input
`[(0,0), (1,1), (2,1), (3,0)]` the source's `len(chain) > 3` rule never
pops (every chain stays at 3 points when a clockwise turn appears), while
the claimed "at least 3 accepted" rule pops `(2,1)` from the lower chain;
the two hulls differ. -/
theorem claim_C5_counterexample :
    asset_dist_hull
        [((0 : ℚ), (0 : ℚ), ([] : List ℚ)), (1, 1, []), (2, 1, []), (3, 0, [])] ≠
      hullAtThree
        [((0 : ℚ), (0 : ℚ), ([] : List ℚ)), (1, 1, []), (2, 1, []), (3, 0, [])] := by
  have h1 : asset_dist_hull
      [((0 : ℚ), (0 : ℚ), ([] : List ℚ)), (1, 1, []), (2, 1, []), (3, 0, [])] =
      [((0 : ℚ), (0 : ℚ), ([] : List ℚ)), (1, 1, []), (2, 1, []), (3, 0, []),
        (2, 1, []), (1, 1, [])] := by
    norm_num [asset_dist_hull, sortPoints, sortByKey, insortBy, dedupPoints,
      dedupAux, buildChain, popChain, cross_z, float_eq, abs_tol, rel_tol]
  have h2 : hullAtThree
      [((0 : ℚ), (0 : ℚ), ([] : List ℚ)), (1, 1, []), (2, 1, []), (3, 0, [])] =
      [((0 : ℚ), (0 : ℚ), ([] : List ℚ)), (1, 1, []), (3, 0, []),
        (2, 1, []), (1, 1, [])] := by
    norm_num [hullAtThree, sortPoints, sortByKey, insortBy, dedupPoints,
      dedupAux, buildChainAtThree, popChainAtThree, cross_z, float_eq,
      abs_tol, rel_tol]
  rw [h1, h2]
  intro heq
  have := congrArg List.length heq
  simp at this

/-- Witness for the amended claim C5 on a concrete four-point input. -/
theorem claim_C5_witness :
    asset_dist_hull
        [((0 : ℚ), (0 : ℚ), ([] : List ℚ)), (1, 1, []), (2, 1, []), (3, 0, [])] =
      (buildChain (dedupPoints (sortPoints
        [((0 : ℚ), (0 : ℚ), ([] : List ℚ)), (1, 1, []), (2, 1, []), (3, 0, [])]))).dropLast ++
        (buildChain ((dedupPoints (sortPoints
          [((0 : ℚ), (0 : ℚ), ([] : List ℚ)), (1, 1, []), (2, 1, []), (3, 0, [])])).reverse)).dropLast :=
  claim_C5.2.2.2 _ (by norm_num)
    (by norm_num [sortPoints, sortByKey, insortBy, dedupPoints, dedupAux,
      float_eq, abs_tol, rel_tol])

/-- Witness for the amended claim C6 on a concrete two-point input. -/
theorem claim_C6_witness :
    ∃ q ∈ asset_dist_hull [((0 : ℚ), (0 : ℚ), ([] : List ℚ)), (1, 1, [])],
      ∀ r ∈ [((0 : ℚ), (0 : ℚ), ([] : List ℚ)), (1, 1, [])], q.1 ≤ r.1 :=
  (claim_C6 [((0 : ℚ), (0 : ℚ), ([] : List ℚ)), (1, 1, [])]).2 (by simp)

/-- Claim C6, counterexample: (i) the dedup tolerance deletes the unique
maximal-return input point `(0, 10⁻⁹)`, so no hull point attains the input's
maximal expected return; (ii) likewise the unique maximal-volatility point
`(1 + 10⁻⁹, 0)` is deleted in favour of `(1, 0)`, so no hull point attains
the maximal volatility; (iii) on a triangle with an interior point the
relaxed pop rule keeps the interior point and the hull re-sorted around its
centroid is not a convex polygon. -/
theorem claim_C6_counterexample :
    (((0 : ℚ), (1 : ℚ)/1000000000, ([] : List ℚ)) ∈
        [((0 : ℚ), (0 : ℚ), ([] : List ℚ)), (0, 1/1000000000, []), (1, 0, [])] ∧
      (∀ r ∈ [((0 : ℚ), (0 : ℚ), ([] : List ℚ)), (0, 1/1000000000, []), (1, 0, [])],
        r.2.1 ≤ 1/1000000000) ∧
      (∀ q ∈ asset_dist_hull
          [((0 : ℚ), (0 : ℚ), ([] : List ℚ)), (0, 1/1000000000, []), (1, 0, [])],
        q.2.1 < 1/1000000000)) ∧
    ((((1 : ℚ) + 1/1000000000), (0 : ℚ), ([] : List ℚ)) ∈
        [((0 : ℚ), (0 : ℚ), ([] : List ℚ)), (1, 0, []), (1 + 1/1000000000, 0, [])] ∧
      (∀ r ∈ [((0 : ℚ), (0 : ℚ), ([] : List ℚ)), (1, 0, []), (1 + 1/1000000000, 0, [])],
        r.1 ≤ 1 + 1/1000000000) ∧
      (∀ q ∈ asset_dist_hull
          [((0 : ℚ), (0 : ℚ), ([] : List ℚ)), (1, 0, []), (1 + 1/1000000000, 0, [])],
        q.1 < 1 + 1/1000000000)) ∧
    ¬ convexCyclic (resortCentroid (asset_dist_hull
        [((0 : ℚ), (0 : ℚ), ([] : List ℚ)), (2, 1, []), (2, 4, []), (4, 0, [])])) := by
  have h1 : asset_dist_hull
      [((0 : ℚ), (0 : ℚ), ([] : List ℚ)), (0, 1/1000000000, []), (1, 0, [])] =
      [((0 : ℚ), (0 : ℚ), ([] : List ℚ)), (1, 0, [])] := by
    norm_num [asset_dist_hull, sortPoints, sortByKey, insortBy, dedupPoints,
      dedupAux, buildChain, popChain, cross_z, float_eq, abs_tol, rel_tol,
      abs_of_pos, abs_of_nonneg]
  have h2 : asset_dist_hull
      [((0 : ℚ), (0 : ℚ), ([] : List ℚ)), (1, 0, []), (1 + 1/1000000000, 0, [])] =
      [((0 : ℚ), (0 : ℚ), ([] : List ℚ)), (1, 0, [])] := by
    norm_num [asset_dist_hull, sortPoints, sortByKey, insortBy, dedupPoints,
      dedupAux, buildChain, popChain, cross_z, float_eq, abs_tol, rel_tol,
      abs_of_pos, abs_of_nonneg]
  have h3 : asset_dist_hull
      [((0 : ℚ), (0 : ℚ), ([] : List ℚ)), (2, 1, []), (2, 4, []), (4, 0, [])] =
      [((0 : ℚ), (0 : ℚ), ([] : List ℚ)), (2, 1, []), (2, 4, []), (4, 0, []),
        (2, 4, []), (2, 1, [])] := by
    norm_num [asset_dist_hull, sortPoints, sortByKey, insortBy, dedupPoints,
      dedupAux, buildChain, popChain, cross_z, float_eq, abs_tol, rel_tol]
  have h4 : resortCentroid
      [((0 : ℚ), (0 : ℚ), ([] : List ℚ)), (2, 1, []), (2, 4, []), (4, 0, []),
        (2, 4, []), (2, 1, [])] =
      [((2 : ℚ), (4 : ℚ), ([] : List ℚ)), (0, 0, []), (2, 1, []), (4, 0, [])] := by
    norm_num [resortCentroid, dedupExact, insortAng, angLt, halfIdx, centroid]
  refine ⟨⟨by norm_num, ?_, ?_⟩, ⟨by norm_num, ?_, ?_⟩, ?_⟩
  · intro r hr
    rw [List.mem_cons, List.mem_cons, List.mem_singleton] at hr
    rcases hr with h | h | h <;> subst h <;> norm_num
  · intro q hq
    rw [h1, List.mem_cons, List.mem_singleton] at hq
    rcases hq with h | h <;> subst h <;> norm_num
  · intro r hr
    rw [List.mem_cons, List.mem_cons, List.mem_singleton] at hr
    rcases hr with h | h | h <;> subst h <;> norm_num
  · intro q hq
    rw [h2, List.mem_cons, List.mem_singleton] at hq
    rcases hq with h | h <;> subst h <;> norm_num
  · rw [h3, h4]
    intro hcv
    have hk := hcv 1 (by norm_num)
    norm_num [cross_z] at hk
